import Mathlib

/-!
Verification of the node-pushover client library.

The library is embedded at the byte level: a JavaScript string (as it ends up
in the HTTP body, which is built with `Buffer.from(_, 'utf8')`) is modelled as
its list of bytes (`List Nat`, each element < 256 where it matters).  All
definitions are transcriptions of the functions in the source file
(`setDefaults`, `loadImage`, `reqString2MP`, `Pushover`, `Pushover.prototype.errors`,
`Pushover.prototype.updateSounds`, `Pushover.prototype.send`) together with the
byte-level behaviour of the node `querystring` module (`qs.stringify`,
`qs.parse`) and `path.basename`, on which the source relies.
-/

/-- A byte string: the UTF-8 bytes of a JavaScript string (or raw buffer contents). -/
abbrev ByteStr := List Nat

/-- Bytes of an ASCII string literal.  Only used for ASCII constants, for which
the UTF-8 bytes are exactly the code points. -/
def bytes (s : String) : ByteStr := s.toList.map Char.toNat

/-- The CRLF line terminator used by the multipart encoder. -/
def crlf : ByteStr := [13, 10]

/-- Two dashes, as appended after the final boundary marker. -/
def dd : ByteStr := [45, 45]

/-- An association list modelling a JavaScript object with string values,
in property insertion order (the order `for (var p in o)` visits keys). -/
abbrev FMap := List (ByteStr × ByteStr)

/-! ## The node `querystring` module, at the byte level

`querystring.stringify` percent-encodes each key and value with the
`encodeURIComponent` character set and joins `key=value` pairs with `&`.
`querystring.parse` splits on `&`, splits each segment at its first `=`, and
decodes `+` to space and `%HH` escapes.  Working on UTF-8 bytes, the escaping
is byte-wise: an unreserved ASCII byte is kept, every other byte becomes
`%HH`; this is exactly what `encodeURIComponent` produces on the UTF-8
encoding of a string, because multi-byte characters have all their bytes
escaped. -/

/-- The unreserved bytes that `encodeURIComponent` (and node's
`querystring.escape`) leaves unescaped: `A-Z a-z 0-9 - _ . ! ~ * ' ( )`. -/
def safeByte (b : Nat) : Bool :=
  (48 ≤ b && b ≤ 57) || (65 ≤ b && b ≤ 90) || (97 ≤ b && b ≤ 122) ||
  b == 45 || b == 95 || b == 46 || b == 33 || b == 126 || b == 42 ||
  b == 39 || b == 40 || b == 41

/-- Uppercase hexadecimal digit for a value below 16. -/
def hexDig (x : Nat) : Nat := if x < 10 then 48 + x else 55 + x

/-- Is a byte an uppercase-hex digit (`0-9`, `A-F`)? -/
def isHex (b : Nat) : Bool := (48 ≤ b && b ≤ 57) || (65 ≤ b && b ≤ 70)

/-- Value of a hex digit byte. -/
def hexVal (b : Nat) : Nat := if b ≤ 57 then b - 48 else b - 55

/-- Percent-escape a single byte. -/
def escByte (b : Nat) : ByteStr :=
  if safeByte b then [b] else [37, hexDig (b / 16), hexDig (b % 16)]

/-- Percent-escape a byte string (`querystring.escape` on the UTF-8 bytes). -/
def escStr (l : ByteStr) : ByteStr := l.flatMap escByte

/-- Byte-level percent-decoding with `+` → space, as `querystring.parse`
applies to each key and value. -/
def unesc : ByteStr → ByteStr
  | [] => []
  | c :: t =>
    if c = 37 then
      match t with
      | h1 :: h2 :: t2 =>
        if isHex h1 && isHex h2 then (16 * hexVal h1 + hexVal h2) :: unesc t2
        else c :: unesc (h1 :: h2 :: t2)
      | t' => c :: unesc t'
    else if c = 43 then 32 :: unesc t
    else c :: unesc t

/-- `Array.prototype.join(sep)`: elements interleaved with the separator. -/
def joinSep (sep : ByteStr) : List ByteStr → ByteStr
  | [] => []
  | [x] => x
  | x :: y :: t => x ++ sep ++ joinSep sep (y :: t)

/-- Split a byte string on every occurrence of the byte `s`. -/
def splitSep (s : Nat) : ByteStr → List ByteStr
  | [] => [[]]
  | c :: t =>
    match splitSep s t with
    | [] => [[]]
    | h :: r => if c = s then [] :: h :: r else (c :: h) :: r

/-- Split a segment at its first `=` byte; `none` if there is no `=`. -/
def splitFirstEq : ByteStr → ByteStr × Option ByteStr
  | [] => ([], none)
  | c :: t =>
    if c = 61 then ([], some t)
    else
      let p := splitFirstEq t
      (c :: p.1, p.2)

/-- `querystring.stringify`: escaped `key=value` segments joined by `&`. -/
def stringifyQS (m : FMap) : ByteStr :=
  joinSep [38] (m.map fun kv => escStr kv.1 ++ [61] ++ escStr kv.2)

/-- Parse one `key=value` segment (value decodes to empty when `=` is absent). -/
def parseSeg (s : ByteStr) : ByteStr × ByteStr :=
  let p := splitFirstEq s
  (unesc p.1, unesc (p.2.getD []))

/-- `querystring.parse`: split on `&`, then each segment at its first `=`,
percent-decoding keys and values.  (Collection of duplicate keys into arrays
is not modelled; the library only parses strings it has itself stringified
from objects, whose keys are distinct.) -/
def parseQS (l : ByteStr) : FMap :=
  if l = [] then [] else (splitSep 38 l).map parseSeg

/-! ## The source file's helpers -/

/-- The optional-field names `setDefaults` fills in. -/
def defList : List ByteStr :=
  [bytes "device", bytes "title", bytes "url", bytes "url_title",
   bytes "priority", bytes "timestamp", bytes "sound"]

/-- Property lookup on a JavaScript object modelled as an association list. -/
def alistLookup (m : FMap) (k : ByteStr) : Option ByteStr :=
  ((m.find? fun kv => kv.1 == k).map fun kv => kv.2)

/-- Property assignment `o[k] = v`: updates the existing property in place,
or appends a new one. -/
def alistSet (m : FMap) (k v : ByteStr) : FMap :=
  if m.any fun kv => kv.1 == k then
    m.map fun kv => if kv.1 == k then (k, v) else kv
  else m ++ [(k, v)]

/-- One step of `setDefaults`: `if (!o[def[i]]) o[def[i]] = ''` — a missing or
empty (falsy) field is set to the empty string. -/
def sdStep (m : FMap) (k : ByteStr) : FMap :=
  if (alistLookup m k).getD [] = [] then alistSet m k [] else m

/-- `setDefaults` from the source: fills each field of `defList` that is
absent or falsy with the empty string. -/
def setDefaults (o : FMap) : FMap := defList.foldl sdStep o

/-- An attachment object: `name`, raw `data` bytes, and an optional MIME
`type` property (`hasOwnProperty('type')`). -/
structure Img where
  name : ByteStr
  data : ByteStr
  type : Option ByteStr
deriving DecidableEq

/-- `path.basename`: strip trailing `/` separators, then keep the part after
the last remaining `/`. -/
def basename (p : ByteStr) : ByteStr :=
  ((p.reverse.dropWhile fun c => c == 47).takeWhile fun c => !(c == 47)).reverse

/-- `loadImage` from the source: name is the path's basename, data is the raw
file contents (the file system is passed in as a function), and no `type`
property is set. -/
def loadImage (fsRead : ByteStr → ByteStr) (imgPath : ByteStr) : Img :=
  { name := basename imgPath, data := fsRead imgPath, type := none }

/-- The `Content-Disposition` header line for a text field part. -/
def cdLine (k : ByteStr) : ByteStr :=
  bytes "Content-Disposition: form-data; name=\"" ++ k ++ [34]

/-- The `Content-Disposition` header line for the attachment part. -/
def cdAttachLine (nm : ByteStr) : ByteStr :=
  bytes "Content-Disposition: form-data; name=\"attachment\"; filename=\"" ++ nm ++ [34]

/-- The attachment's `Content-Type` line: the declared type when the `type`
property exists, otherwise `application/octet-stream`. -/
def ctLine (im : Img) : ByteStr :=
  match im.type with
  | some t => bytes "Content-Type: " ++ t
  | none => bytes "Content-Type: application/octet-stream"

/-- The four lines the field loop pushes for one non-empty field:
`Content-Disposition` header, blank line, the value, and the boundary. -/
def quadLines (b : ByteStr) (kv : ByteStr × ByteStr) : List ByteStr :=
  [cdLine kv.1, [], kv.2, b]

/-- The line array `a` of `reqString2MP` after the field loop: the boundary
marker, then four lines per non-empty field of the parsed object. -/
def fieldArr (o : FMap) (b : ByteStr) : List ByteStr :=
  b :: (o.filter fun kv => decide (kv.2 ≠ [])).flatMap (quadLines b)

/-- The body-building core of `reqString2MP`, operating on the parsed object
`o = qs.parse(rs)`.  With an attachment the attachment header lines and two
empty strings are pushed and the result is
`Buffer.concat([utf8(a.join(CRLF)), data, utf8(CRLF + b + '--' + CRLF)])`;
without one, `a.splice(-1, 1)` drops the trailing boundary line and the
result is `Buffer.concat([utf8(a.join(CRLF)), utf8(b + '--' + CRLF)])`. -/
def mp2Core (o : FMap) (b : ByteStr) (img : Option Img) : ByteStr :=
  match img with
  | some im =>
    joinSep crlf (fieldArr o b ++ [cdAttachLine im.name, ctLine im, [], []]) ++
      im.data ++ (crlf ++ b ++ dd ++ crlf)
  | none =>
    joinSep crlf (fieldArr o b).dropLast ++ (b ++ dd ++ crlf)

/-- `reqString2MP` from the source: parse the request string and build the
multipart body. -/
def reqString2MP (rs b : ByteStr) (img : Option Img) : ByteStr :=
  mp2Core (parseQS rs) b img

/-! ## The dispatcher `Pushover.prototype.send` -/

/-- `token` as a key. -/
def tokenKey : ByteStr := bytes "token"

/-- `user` as a key. -/
def userKey : ByteStr := bytes "user"

/-- `file` as a key. -/
def fileKey : ByteStr := bytes "file"

/-- One step of the field-copying loop of `send`:
`if (obj[p] !== '') if (p !== 'file') reqString[p] = obj[p]`. -/
def brStep (m : FMap) (kv : ByteStr × ByteStr) : FMap :=
  if kv.2 ≠ [] ∧ kv.1 ≠ fileKey then alistSet m kv.1 kv.2 else m

/-- The request map built by `send`: `token`/`user` start as
`self.token || obj.token` and `self.user || obj.user` (a missing per-call
value is rendered as the empty string, exactly as `qs.stringify` renders
`undefined`), then every non-empty field of the message except `file` is
assigned over it. -/
def buildReqString (t u : ByteStr) (o : FMap) : FMap :=
  let t0 := if t ≠ [] then t else (alistLookup o tokenKey).getD []
  let u0 := if u ≠ [] then u else (alistLookup o userKey).getD []
  o.foldl brStep [(tokenKey, t0), (userKey, u0)]

/-- The attachment `send` resolves: a `file` property holding a pre-built
object is used as-is; a non-empty string path goes through `loadImage`;
a falsy `file` means no attachment. -/
def resolveFile (fsRead : ByteStr → ByteStr) (o : FMap) (fileObj : Option Img) :
    Option Img :=
  match fileObj with
  | some im => some im
  | none =>
    match alistLookup o fileKey with
    | some p => if p = [] then none else some (loadImage fsRead p)
    | none => none

/-- A Pushover client instance: the state set up by the constructor that
`send` reads (`boundary`, `token`, `user`). -/
structure Pclient where
  boundary : ByteStr
  token : ByteStr
  user : ByteStr

/-- The constructor: `this.boundary = "--" + <random token>`, and the
credentials are stored. -/
def mkPushover (token user rand : ByteStr) : Pclient :=
  { boundary := dd ++ rand, token := token, user := user }

/-- The outbound HTTP request `send` constructs (method, the two headers it
sets, and the body it writes). -/
structure HReq where
  method : ByteStr
  contentType : ByteStr
  contentLength : Nat
  body : ByteStr
deriving DecidableEq

/-- `send`: fill defaults, build and stringify the request map, encode the
multipart body with the instance boundary and the resolved attachment, and
construct the POST request with `Content-type: multipart/form-data;
boundary=` + `self.boundary.substring(2)` and `Content-Length: mp.length`. -/
def sendRequest (fsRead : ByteStr → ByteStr) (c : Pclient) (obj : FMap)
    (fileObj : Option Img) : HReq :=
  let o := setDefaults obj
  let rs := stringifyQS (buildReqString c.token c.user o)
  let mp := reqString2MP rs c.boundary (resolveFile fsRead o fileObj)
  { method := bytes "POST"
    contentType := bytes "multipart/form-data; boundary=" ++ c.boundary.drop 2
    contentLength := mp.length
    body := mp }

/-! ## `Pushover.prototype.errors`

`JSON.parse` is external; a response datum is modelled by its parse result:
`none` for a string that is not valid JSON, or a `JVal` recording whether the
parsed value has an `errors` property (a present property is truthy even for
an empty array, matching `if (d.errors)`) and whether it has a `sounds`
property (used by `updateSounds`). -/

/-- The observable shape of a parsed JSON response. -/
structure JVal where
  errs : Option (List ByteStr)
  snds : Option FMap
deriving DecidableEq

/-- The argument `errors` receives: a string (with its parse result) or an
already-parsed object (e.g. the `Error` object of a transport failure, which
has no `errors` property: `objv ⟨none, none⟩`). -/
inductive ErrInput where
  | str (p : Option JVal)
  | objv (j : JVal)
deriving DecidableEq

/-- A report delivered to the configured `onerror` handler. -/
inductive Report where
  | parseFail
  | appErr (e : Option ByteStr)
deriving DecidableEq

/-- The outcome of one `errors` call: the reports delivered to `onerror`,
whether the call threw (`throw new Error(...)` on an application error with
no handler), and whether it reached `this.onerror(...)` with no handler
configured (a `TypeError` call of `undefined`). -/
structure ErrOut where
  reports : List Report
  threw : Bool
  badCall : Bool
deriving DecidableEq

/-- The `if (d.errors)` half of `errors`, after `d` holds a parsed value. -/
def errAppPart (onerror : Bool) (j : JVal) : ErrOut :=
  match j.errs with
  | some es => if onerror then ⟨[Report.appErr es.head?], false, false⟩ else ⟨[], true, false⟩
  | none => ⟨[], false, false⟩

/-- `Pushover.prototype.errors`: a string argument is JSON-parsed — on parse
failure the catch block calls `this.onerror(error, res)` unconditionally (so
with no handler configured this is a call of `undefined`), and `d` stays a
string, whose `errors` property is `undefined`; on success, or for an object
argument, `if (d.errors)` reports the first error through `onerror` or throws
when no handler is configured. -/
def errorsRun (onerror : Bool) (d : ErrInput) : ErrOut :=
  match d with
  | ErrInput.str none =>
    if onerror then ⟨[Report.parseFail], false, false⟩ else ⟨[], false, true⟩
  | ErrInput.str (some j) => errAppPart onerror j
  | ErrInput.objv j => errAppPart onerror j

/-! ## The response/error event handling of `send`

The transport is modelled by the sequence of events delivered to the handlers
`send` installs: `data` chunks and `end` on the response, and `error` on the
request.  The state carries the accumulated `data` string, whether the
callback variable `fn` is still set (the error handler does `fn = null`), the
calls made to the callback, and whether an uncaught exception escaped a
handler (crashing the process). -/

/-- A transport event. -/
inductive TEv where
  | chunk (c : ByteStr)
  | done
  | fail
deriving DecidableEq

/-- A completion-callback invocation: `fn(err, data, res)` on the success path
(`err` is never assigned, so it is `undefined`), or `fn(err)` on the
transport-error path. -/
inductive SendCall where
  | success (body : ByteStr)
  | failure
deriving DecidableEq

/-- State of one in-flight `send` request. -/
structure SendSt where
  calls : List SendCall
  alive : Bool
  acc : ByteStr
  crashed : Bool
deriving DecidableEq

/-- Does `self.errors(data, res)` escape with an exception at response end
(application error in the parsed body with no `onerror`, or — with no
`onerror` — the `TypeError` of the parse-failure branch)? -/
def sendThrows (onerror : Bool) (parse : ByteStr → Option JVal) (data : ByteStr) :
    Bool :=
  let r := errorsRun onerror (ErrInput.str (parse data))
  r.threw || r.badCall

/-- One transport event processed by the handlers `send` installed:
`data` appends the chunk; `end` runs `self.errors(data, res)` (crashing on an
escaped exception before the callback runs) and then calls `fn(err, data,
res)` if `fn` is set (it is not cleared afterwards); `error` calls `fn(err)`
if `fn` is set and then clears `fn`. -/
def sendStep (onerror : Bool) (parse : ByteStr → Option JVal) (s : SendSt)
    (e : TEv) : SendSt :=
  if s.crashed then s
  else
    match e with
    | TEv.chunk c => { s with acc := s.acc ++ c }
    | TEv.done =>
      if sendThrows onerror parse s.acc then { s with crashed := true }
      else if s.alive then { s with calls := s.calls ++ [SendCall.success s.acc] }
      else s
    | TEv.fail =>
      if s.alive then { s with calls := s.calls ++ [SendCall.failure], alive := false }
      else s

/-- Run one `send` request against a transport event trace. -/
def runSend (onerror : Bool) (parse : ByteStr → Option JVal) (tr : List TEv) :
    SendSt :=
  tr.foldl (sendStep onerror parse) ⟨[], true, [], false⟩

/-- Is the event a data chunk? -/
def isChunkB : TEv → Bool
  | TEv.chunk _ => true
  | _ => false

/-- Is the event the response `end`? -/
def isDoneB : TEv → Bool
  | TEv.done => true
  | _ => false

/-- Is the event a request `error`? -/
def isFailB : TEv → Bool
  | TEv.fail => true
  | _ => false

/-- Does a `done` occur strictly before some `fail` in the trace? -/
def hasDoneBeforeFail : List TEv → Bool
  | [] => false
  | e :: t => (isDoneB e && t.any isFailB) || hasDoneBeforeFail t

/-- A well-formed transport trace: the response emits `end` at most once, the
request emits `error` at most once, and a successfully ended response is not
followed by a request error (per the Node contract noted in the source
comment; the converse — an `end` after an `error` — is allowed, which is
exactly the situation the `fn = null` guard defends against). -/
def wfTrace (tr : List TEv) : Bool :=
  decide (tr.countP isDoneB ≤ 1) && decide (tr.countP isFailB ≤ 1) &&
    !hasDoneBeforeFail tr

/-- The bytes carried by a chunk event. -/
def evBytes : TEv → ByteStr
  | TEv.chunk c => c
  | _ => []

/-- Concatenation of the data chunks of a trace. -/
def concatChunks (tr : List TEv) : ByteStr := (tr.map evBytes).flatten

/-! ## `Pushover.prototype.updateSounds` -/

/-- Outcome of the sounds request: a transport error, or a complete response
body (given by its JSON parse result). -/
inductive USOut where
  | terr
  | body (p : Option JVal)
deriving DecidableEq

/-- Result of one `updateSounds` round: the sound table afterwards (`none`
models the JavaScript value `undefined`), the reports delivered to `onerror`,
whether an uncaught exception escaped, and whether `self.errors` was
invoked. -/
structure USRes where
  table : Option FMap
  reports : List Report
  crashed : Bool
  errCalled : Bool
deriving DecidableEq

/-- One `updateSounds` round.  On a request error, `self.errors(e)` is called
with the `Error` object.  On response end, `JSON.parse(data)` inside `try`:
on parse failure the catch block calls
`self.errors('Pushover: parsing sound data failed', res)` (a string that is
itself not valid JSON); on success `self.errors(data, res)` runs — if it
throws, the catch block runs instead and the table is untouched — and then
`self.sounds = j.sounds`. -/
def updateSoundsRun (onerror : Bool) (table : Option FMap) (out : USOut) : USRes :=
  match out with
  | USOut.terr =>
    let r := errorsRun onerror (ErrInput.objv ⟨none, none⟩)
    ⟨table, r.reports, r.threw || r.badCall, true⟩
  | USOut.body none =>
    let r := errorsRun onerror (ErrInput.str none)
    ⟨table, r.reports, r.threw || r.badCall, true⟩
  | USOut.body (some j) =>
    let r := errorsRun onerror (ErrInput.str (some j))
    if r.threw || r.badCall then
      let r2 := errorsRun onerror (ErrInput.str none)
      ⟨table, r.reports ++ r2.reports, r2.threw || r2.badCall, true⟩
    else
      ⟨j.snds, r.reports, false, true⟩

/-! ## Structure of the encoded body -/

/-- A list of lines, each terminated by CRLF. -/
def linesCRLF (ls : List ByteStr) : ByteStr := ls.foldr (fun l r => l ++ crlf ++ r) []

theorem joinSep_cons_cons (sep x y : ByteStr) (t : List ByteStr) :
    joinSep sep (x :: y :: t) = x ++ sep ++ joinSep sep (y :: t) := rfl

/-- `join` of a list with a distinguished last element: every earlier element
is terminated by the separator, the last is not. -/
theorem joinSep_concat (sep : ByteStr) (ls : List ByteStr) (x : ByteStr) :
    joinSep sep (ls ++ [x]) = ls.foldr (fun l r => l ++ sep ++ r) [] ++ x := by
  induction ls with
  | nil => simp [joinSep]
  | cons a t ih =>
    cases t with
    | nil => simp [joinSep]
    | cons b t2 =>
      rw [show (a :: b :: t2) ++ [x] = a :: ((b :: t2) ++ [x]) from rfl]
      rw [show joinSep sep (a :: ((b :: t2) ++ [x])) =
            a ++ sep ++ joinSep sep ((b :: t2) ++ [x]) from rfl]
      rw [ih]
      simp [List.append_assoc]

theorem joinSep_crlf_concat (ls : List ByteStr) (x : ByteStr) :
    joinSep crlf (ls ++ [x]) = linesCRLF ls ++ x := joinSep_concat crlf ls x

/-- The attachment-path body: all text lines CRLF-terminated (the blank line
after the `Content-Type` header included), then the raw data, then
CRLF + boundary + `--` + CRLF. -/
theorem mp_attach_eq (o : FMap) (b : ByteStr) (im : Img) :
    mp2Core o b (some im) =
      linesCRLF (fieldArr o b ++ [cdAttachLine im.name, ctLine im, []]) ++
        im.data ++ (crlf ++ b ++ dd ++ crlf) := by
  have h : fieldArr o b ++ [cdAttachLine im.name, ctLine im, [], []] =
      (fieldArr o b ++ [cdAttachLine im.name, ctLine im, []]) ++ [[]] := by
    simp
  rw [mp2Core, h, joinSep_crlf_concat]
  simp

/-- The no-attachment body when every field is empty: just the closing
delimiter line. -/
theorem mp_noattach_empty (o : FMap) (b : ByteStr)
    (h : o.filter (fun kv => decide (kv.2 ≠ [])) = []) :
    mp2Core o b none = b ++ dd ++ crlf := by
  rw [mp2Core, fieldArr, h]
  simp [joinSep]

/-- The no-attachment body with at least one non-empty field: the closing
delimiter `b ++ "--" ++ CRLF` is appended immediately after the final field's
value, with no CRLF in between. -/
theorem mp_noattach_last (o : FMap) (b k v : ByteStr) (ps : FMap)
    (h : o.filter (fun kv => decide (kv.2 ≠ [])) = ps ++ [(k, v)]) :
    mp2Core o b none =
      linesCRLF (b :: ps.flatMap (quadLines b) ++ [cdLine k, []]) ++
        v ++ (b ++ dd ++ crlf) := by
  have harr : fieldArr o b =
      ((b :: ps.flatMap (quadLines b) ++ [cdLine k, [], v]) ++ [b]) := by
    rw [fieldArr, h]
    simp [quadLines]
  have hdrop : (fieldArr o b).dropLast =
      (b :: ps.flatMap (quadLines b) ++ [cdLine k, []]) ++ [v] := by
    rw [harr, List.dropLast_concat]
    simp
  rw [mp2Core, hdrop, joinSep_crlf_concat]

/-! ## Claims C1 and C4: the shape of the encoded body -/

/-- C1, counterexample: with the field `token=T` and boundary `--X` and no
attachment, the encoded body is
`--X CRLF Content-Disposition...token CRLF CRLF T--X-- CRLF`: the last
value line is not CRLF-terminated and the closing delimiter is not preceded
by CRLF (the sequence CRLF + boundary + `--` occurs nowhere in the body), so
the claimed line framing fails on the no-attachment path. -/
theorem c1_counterexample :
    reqString2MP (bytes "token=T") (bytes "--X") none =
      bytes "--X\r\nContent-Disposition: form-data; name=\"token\"\r\n\r\nT--X--\r\n"
    ∧ ¬ ((crlf ++ bytes "--X" ++ dd) <:+: reqString2MP (bytes "token=T") (bytes "--X") none) := by
  constructor
  · decide
  · decide

/-- C1, amended: with an attachment, every text line (boundary lines,
headers, blank lines, field values) is CRLF-terminated and the body ends with
CRLF, the boundary marker, `--` and a final CRLF; without an attachment the
closing `boundary ++ "--" ++ CRLF` is appended immediately after the last
non-empty field's value with no preceding CRLF (so the final value line is
not CRLF-terminated). -/
theorem c1_amended (o : FMap) (b : ByteStr) (im : Img) (ps : FMap) (k v : ByteStr) :
    (mp2Core o b (some im) =
      linesCRLF (fieldArr o b ++ [cdAttachLine im.name, ctLine im, []]) ++
        im.data ++ (crlf ++ b ++ dd ++ crlf))
    ∧ (o.filter (fun kv => decide (kv.2 ≠ [])) = ps ++ [(k, v)] →
        mp2Core o b none =
          linesCRLF (b :: ps.flatMap (quadLines b) ++ [cdLine k, []]) ++
            v ++ (b ++ dd ++ crlf)) :=
  ⟨mp_attach_eq o b im, fun h => mp_noattach_last o b k v ps h⟩

/-- Witness for `c1_amended` at a concrete input. -/
theorem c1_amended_witness :
    ([(bytes "message", bytes "hello")].filter (fun kv => decide (kv.2 ≠ [])) =
      [] ++ [(bytes "message", bytes "hello")])
    ∧ mp2Core [(bytes "message", bytes "hello")] (bytes "--X") none =
        linesCRLF (bytes "--X" :: List.flatMap ([] : FMap) (quadLines (bytes "--X")) ++
            [cdLine (bytes "message"), []]) ++
          bytes "hello" ++ (bytes "--X" ++ dd ++ crlf) :=
  ⟨by decide,
   (c1_amended [(bytes "message", bytes "hello")] (bytes "--X") ⟨[], [], none⟩ []
      (bytes "message") (bytes "hello")).2 (by decide)⟩

/-- C4, counterexample: with zero field pairs and no attachment the body is
the single line `--X-- CRLF`; it does not begin with a boundary line
(`--X CRLF`) followed by the closing delimiter. -/
theorem c4_counterexample :
    reqString2MP [] (bytes "--X") none = bytes "--X--\r\n"
    ∧ ¬ ((bytes "--X" ++ crlf) <+: reqString2MP [] (bytes "--X") none)
    ∧ reqString2MP [] (bytes "--X") none ≠ bytes "--X" ++ crlf ++ bytes "--X--\r\n" := by
  refine ⟨by decide, by decide, by decide⟩

/-- C4, amended: with zero non-empty field pairs and no attachment, the body
is exactly the closing-delimiter line — the boundary marker immediately
followed by `--` and CRLF — with no separate boundary line before it. -/
theorem c4_amended (rs b : ByteStr)
    (h : (parseQS rs).filter (fun kv => decide (kv.2 ≠ [])) = []) :
    reqString2MP rs b none = b ++ dd ++ crlf :=
  mp_noattach_empty (parseQS rs) b h

/-- Witness for `c4_amended`: a request string whose fields are all empty. -/
theorem c4_amended_witness :
    ((parseQS (bytes "a=&c=")).filter (fun kv => decide (kv.2 ≠ [])) = [])
    ∧ reqString2MP (bytes "a=&c=") (bytes "--X") none = bytes "--X" ++ dd ++ crlf :=
  ⟨by decide, c4_amended (bytes "a=&c=") (bytes "--X") (by decide)⟩

/-! ## Claim C8: attachment bytes are embedded verbatim -/

/-- C8: the attachment path splits the body as
`text framing ++ raw data ++ closing delimiter`: the total byte length is the
framing length plus the raw attachment length plus the closing-delimiter
length (`b.length + 6`), and slicing the body at the analytically computed
offsets returns exactly the original attachment bytes — no re-encoding. -/
theorem c8_attachment_binary_roundtrip (o : FMap) (b : ByteStr) (im : Img) :
    mp2Core o b (some im) =
      linesCRLF (fieldArr o b ++ [cdAttachLine im.name, ctLine im, []]) ++
        im.data ++ (crlf ++ b ++ dd ++ crlf)
    ∧ (mp2Core o b (some im)).length =
        (linesCRLF (fieldArr o b ++ [cdAttachLine im.name, ctLine im, []])).length +
          im.data.length + (b.length + 6)
    ∧ ((mp2Core o b (some im)).drop
          (linesCRLF (fieldArr o b ++ [cdAttachLine im.name, ctLine im, []])).length).take
        im.data.length = im.data
    ∧ (mp2Core o b (some im)).drop
        ((linesCRLF (fieldArr o b ++ [cdAttachLine im.name, ctLine im, []])).length +
          im.data.length) = crlf ++ b ++ dd ++ crlf := by
  have h := mp_attach_eq o b im
  set hd := linesCRLF (fieldArr o b ++ [cdAttachLine im.name, ctLine im, []]) with hhd
  have h2 : mp2Core o b (some im) = (hd ++ im.data) ++ (crlf ++ b ++ dd ++ crlf) := by
    rw [h]
  refine ⟨h, ?_, ?_, ?_⟩
  · rw [h2]
    simp [crlf, dd]
    omega
  · rw [h2, List.append_assoc, List.drop_left, List.take_left]
  · rw [h2]
    have hlen : (hd ++ im.data).length = hd.length + im.data.length := by
      simp
    rw [← hlen, List.drop_left]

/-! ## Claim C9: the constructed HTTP request -/

/-- C9: `send` builds a POST whose `Content-Type` is
`multipart/form-data; boundary=<token>` where `<token>` is the random token
generated once at construction (the body's part delimiter being `--<token>`,
i.e. the stored `boundary`), whose `Content-Length` equals the exact byte
length of the body, and whose `Content-Type` (hence boundary) is identical
across all requests of the same instance. -/
theorem c9_request_construction (fsRead : ByteStr → ByteStr)
    (token user rand : ByteStr) (obj obj2 : FMap) (fileObj fileObj2 : Option Img) :
    (sendRequest fsRead (mkPushover token user rand) obj fileObj).method = bytes "POST"
    ∧ (sendRequest fsRead (mkPushover token user rand) obj fileObj).contentType =
        bytes "multipart/form-data; boundary=" ++ rand
    ∧ (sendRequest fsRead (mkPushover token user rand) obj fileObj).contentLength =
        (sendRequest fsRead (mkPushover token user rand) obj fileObj).body.length
    ∧ (sendRequest fsRead (mkPushover token user rand) obj fileObj).body =
        mp2Core (parseQS (stringifyQS (buildReqString token user (setDefaults obj))))
          (dd ++ rand) (resolveFile fsRead (setDefaults obj) fileObj)
    ∧ (sendRequest fsRead (mkPushover token user rand) obj2 fileObj2).contentType =
        (sendRequest fsRead (mkPushover token user rand) obj fileObj).contentType := by
  refine ⟨rfl, ?_, rfl, rfl, rfl⟩
  simp [sendRequest, mkPushover, dd]

/-! ## Round trip of `querystring.parse` after `querystring.stringify` -/

/-- Validity of a byte string: every element is an actual byte. -/
abbrev validB (l : ByteStr) : Prop := ∀ x ∈ l, x < 256

/-- The stringified segment of one key/value pair. -/
def segOf (kv : ByteStr × ByteStr) : ByteStr := escStr kv.1 ++ [61] ++ escStr kv.2

theorem stringifyQS_eq_joinSegs (m : FMap) :
    stringifyQS m = joinSep [38] (m.map segOf) := rfl

theorem safeByte_ne_special (b : Nat) (h : safeByte b = true) :
    b ≠ 37 ∧ b ≠ 43 ∧ b ≠ 38 ∧ b ≠ 61 := by
  simp only [safeByte, Bool.or_eq_true, Bool.and_eq_true, decide_eq_true_eq,
    beq_iff_eq] at h
  omega

theorem isHex_hexDig (x : Nat) (h : x < 16) : isHex (hexDig x) = true := by
  simp only [isHex, hexDig, Bool.or_eq_true, Bool.and_eq_true, decide_eq_true_eq]
  split <;> omega

theorem hexVal_hexDig (x : Nat) (h : x < 16) : hexVal (hexDig x) = x := by
  simp only [hexVal, hexDig]
  split <;> split <;> omega

theorem unesc_cons_plain (c : Nat) (t : ByteStr) (h1 : c ≠ 37) (h2 : c ≠ 43) :
    unesc (c :: t) = c :: unesc t := by
  cases t with
  | nil => simp [unesc, h1, h2]
  | cons a t2 =>
    cases t2 with
    | nil => simp [unesc, h1, h2]
    | cons a2 t3 => simp [unesc, h1, h2]

theorem unesc_pct (b : Nat) (t : ByteStr) (hb : b < 256) :
    unesc (37 :: hexDig (b / 16) :: hexDig (b % 16) :: t) = b :: unesc t := by
  have i1 : isHex (hexDig (b / 16)) = true := isHex_hexDig _ (by omega)
  have i2 : isHex (hexDig (b % 16)) = true := isHex_hexDig _ (Nat.mod_lt _ (by norm_num))
  have e1 : hexVal (hexDig (b / 16)) = b / 16 := hexVal_hexDig _ (by omega)
  have e2 : hexVal (hexDig (b % 16)) = b % 16 :=
    hexVal_hexDig _ (Nat.mod_lt _ (by norm_num))
  rw [unesc]
  rw [if_pos rfl]
  simp only [i1, i2, Bool.and_self, if_pos, e1, e2]
  rw [Nat.div_add_mod b 16]

theorem escByte_safe (b : Nat) (h : safeByte b = true) : escByte b = [b] := by
  simp [escByte, h]

theorem escByte_pct (b : Nat) (h : ¬ safeByte b = true) :
    escByte b = [37, hexDig (b / 16), hexDig (b % 16)] := by
  simp [escByte, h]

theorem escStr_cons (b : Nat) (t : ByteStr) :
    escStr (b :: t) = escByte b ++ escStr t := rfl

/-- Decoding inverts encoding, byte for byte. -/
theorem unesc_escStr (l : ByteStr) (h : validB l) : unesc (escStr l) = l := by
  induction l with
  | nil => rfl
  | cons b t ih =>
    have hb : b < 256 := h b (List.mem_cons_self b t)
    have ht : validB t := fun x hx => h x (List.mem_cons_of_mem b hx)
    rw [escStr_cons]
    by_cases hs : safeByte b = true
    · rw [escByte_safe b hs, List.cons_append, List.nil_append]
      have hne := safeByte_ne_special b hs
      rw [unesc_cons_plain b _ hne.1 hne.2.1, ih ht]
    · rw [escByte_pct b hs]
      rw [show ([37, hexDig (b / 16), hexDig (b % 16)] : ByteStr) ++ escStr t =
            37 :: hexDig (b / 16) :: hexDig (b % 16) :: escStr t from rfl]
      rw [unesc_pct b _ hb, ih ht]

theorem escByte_ne_sep (b c : Nat) (hc : c ∈ escByte b) : c ≠ 38 ∧ c ≠ 61 := by
  by_cases hs : safeByte b = true
  · rw [escByte_safe b hs] at hc
    simp only [List.mem_singleton] at hc
    subst hc
    exact ⟨(safeByte_ne_special _ hs).2.2.1, (safeByte_ne_special _ hs).2.2.2⟩
  · rw [escByte_pct b hs] at hc
    simp only [List.mem_cons, List.mem_singleton, List.not_mem_nil, or_false] at hc
    have hd : ∀ x, hexDig x ≠ 38 ∧ hexDig x ≠ 61 := by
      intro x
      simp only [hexDig]
      split <;> omega
    rcases hc with rfl | rfl | rfl
    · omega
    · exact hd _
    · exact hd _

theorem not_mem_escStr_38 (l : ByteStr) : 38 ∉ escStr l := by
  intro hm
  rw [escStr, List.mem_flatMap] at hm
  obtain ⟨b, _, hb⟩ := hm
  exact (escByte_ne_sep b 38 hb).1 rfl

theorem not_mem_escStr_61 (l : ByteStr) : 61 ∉ escStr l := by
  intro hm
  rw [escStr, List.mem_flatMap] at hm
  obtain ⟨b, _, hb⟩ := hm
  exact (escByte_ne_sep b 61 hb).2 rfl

theorem not_mem_segOf_38 (kv : ByteStr × ByteStr) : 38 ∉ segOf kv := by
  intro hm
  rw [segOf] at hm
  rcases List.mem_append.1 hm with h | h
  · rcases List.mem_append.1 h with h2 | h2
    · exact not_mem_escStr_38 _ h2
    · simp at h2
  · exact not_mem_escStr_38 _ h

theorem segOf_ne_nil (kv : ByteStr × ByteStr) : segOf kv ≠ [] := by
  rw [segOf]
  simp

theorem splitFirstEq_append (k v : ByteStr) (h : 61 ∉ k) :
    splitFirstEq (k ++ 61 :: v) = (k, some v) := by
  induction k with
  | nil => simp [splitFirstEq]
  | cons c t ih =>
    have hc : c ≠ 61 := fun e => h (e ▸ List.mem_cons_self c t)
    have ht : 61 ∉ t := fun hx => h (List.mem_cons_of_mem c hx)
    rw [List.cons_append, splitFirstEq]
    rw [if_neg hc, ih ht]

theorem parseSeg_segOf (kv : ByteStr × ByteStr) (h1 : validB kv.1) (h2 : validB kv.2) :
    parseSeg (segOf kv) = kv := by
  have hsplit : splitFirstEq (escStr kv.1 ++ 61 :: escStr kv.2) =
      (escStr kv.1, some (escStr kv.2)) :=
    splitFirstEq_append _ _ (not_mem_escStr_61 kv.1)
  have hseg : segOf kv = escStr kv.1 ++ 61 :: escStr kv.2 := by
    rw [segOf, List.append_assoc]
    rfl
  rw [parseSeg, hseg, hsplit]
  simp only [Option.getD_some]
  rw [unesc_escStr _ h1, unesc_escStr _ h2]

theorem splitSep_ne_nil (s : Nat) (l : ByteStr) : splitSep s l ≠ [] := by
  cases l with
  | nil => simp [splitSep]
  | cons c t =>
    rw [splitSep]
    cases splitSep s t with
    | nil => simp
    | cons h r =>
      by_cases hc : c = s <;> simp [hc]

theorem splitSep_not_mem (s : Nat) (a : ByteStr) (h : s ∉ a) : splitSep s a = [a] := by
  induction a with
  | nil => rfl
  | cons c t ih =>
    have hc : c ≠ s := fun e => h (e ▸ List.mem_cons_self c t)
    have ht : s ∉ t := fun hx => h (List.mem_cons_of_mem c hx)
    rw [splitSep, ih ht]
    simp [hc]

theorem splitSep_append (s : Nat) (a r : ByteStr) (h : s ∉ a) :
    splitSep s (a ++ s :: r) = a :: splitSep s r := by
  induction a with
  | nil =>
    rw [List.nil_append, splitSep]
    cases hsr : splitSep s r with
    | nil => exact absurd hsr (splitSep_ne_nil s r)
    | cons x xs => simp
  | cons c t ih =>
    have hc : c ≠ s := fun e => h (e ▸ List.mem_cons_self c t)
    have ht : s ∉ t := fun hx => h (List.mem_cons_of_mem c hx)
    rw [List.cons_append, splitSep, ih ht]
    simp [hc]

theorem splitSep_joinSep (s : Nat) (segs : List ByteStr)
    (h : ∀ a ∈ segs, s ∉ a) (hne : segs ≠ []) :
    splitSep s (joinSep [s] segs) = segs := by
  induction segs with
  | nil => exact absurd rfl hne
  | cons a t ih =>
    cases t with
    | nil =>
      rw [show joinSep [s] [a] = a from rfl]
      exact splitSep_not_mem s a (h a (List.mem_cons_self a []))
    | cons b t2 =>
      rw [joinSep_cons_cons]
      have hstep : a ++ [s] ++ joinSep [s] (b :: t2) =
          a ++ s :: joinSep [s] (b :: t2) := by
        rw [List.append_assoc]
        rfl
      rw [hstep, splitSep_append s a _ (h a (List.mem_cons_self a _))]
      rw [ih (fun x hx => h x (List.mem_cons_of_mem a hx)) (by simp)]

theorem joinSep_cons_ne_nil (s : Nat) (a : ByteStr) (t : List ByteStr)
    (ha : a ≠ []) : joinSep [s] (a :: t) ≠ [] := by
  cases t with
  | nil => exact ha
  | cons b t2 =>
    rw [joinSep_cons_cons]
    simp [ha]

/-- The round trip: parsing a stringified field map returns exactly the map. -/
theorem parseQS_stringifyQS (m : FMap) (h : ∀ kv ∈ m, validB kv.1 ∧ validB kv.2) :
    parseQS (stringifyQS m) = m := by
  cases m with
  | nil => rfl
  | cons kv tl =>
    have hne : stringifyQS (kv :: tl) ≠ [] := by
      rw [stringifyQS_eq_joinSegs, List.map_cons]
      exact joinSep_cons_ne_nil 38 _ _ (segOf_ne_nil kv)
    rw [parseQS, if_neg hne, stringifyQS_eq_joinSegs]
    rw [splitSep_joinSep 38 _ (by
      intro a ha
      rw [List.mem_map] at ha
      obtain ⟨kv', _, rfl⟩ := ha
      exact not_mem_segOf_38 kv') (by simp)]
    rw [List.map_map]
    have : ∀ kv' ∈ (kv :: tl), (parseSeg ∘ segOf) kv' = kv' := by
      intro kv' hm
      exact parseSeg_segOf kv' (h kv' hm).1 (h kv' hm).2
    calc (kv :: tl).map (parseSeg ∘ segOf) = (kv :: tl).map id := List.map_congr_left this
      _ = kv :: tl := List.map_id _

/-! ## Association-list lemmas for the request-map construction -/

/-- The keys of a field map, in order. -/
def keysOf (m : FMap) : List ByteStr := m.map Prod.fst

theorem alistLookup_cons (kv : ByteStr × ByteStr) (m : FMap) (k : ByteStr) :
    alistLookup (kv :: m) k =
      if kv.1 == k then some kv.2 else alistLookup m k := by
  unfold alistLookup
  cases h : kv.1 == k with
  | false => simp [List.find?_cons, h]
  | true => simp [List.find?_cons, h]

theorem alistLookup_self_cons (k v : ByteStr) (m : FMap) :
    alistLookup ((k, v) :: m) k = some v := by
  rw [alistLookup_cons]
  simp

theorem lookup_set_self (m : FMap) (k v : ByteStr) :
    alistLookup (alistSet m k v) k = some v := by
  rw [alistSet]
  split
  case isTrue h =>
    induction m with
    | nil => simp at h
    | cons kv tl ih =>
      rw [List.map_cons]
      by_cases hk : (kv.1 == k) = true
      · rw [if_pos hk]
        exact alistLookup_self_cons k v _
      · rw [if_neg hk, alistLookup_cons]
        rw [if_neg hk]
        apply ih
        simp only [List.any_cons, Bool.or_eq_true] at h
        rcases h with h | h
        · exact absurd h hk
        · exact h
  case isFalse h =>
    induction m with
    | nil => exact alistLookup_self_cons k v []
    | cons kv tl ih =>
      rw [List.cons_append, alistLookup_cons]
      have hk : (kv.1 == k) = false := by
        by_contra hc
        exact h (by simp only [List.any_cons, Bool.or_eq_true]
                    exact Or.inl (by simpa using hc))
      rw [if_neg (by simp [hk])]
      apply ih
      intro hc
      exact h (by simp only [List.any_cons, Bool.or_eq_true]; exact Or.inr hc)

theorem lookup_map_update_other (m : FMap) (k v k' : ByteStr) (h : k' ≠ k) :
    alistLookup (m.map fun kv => if kv.1 == k then (k, v) else kv) k' =
      alistLookup m k' := by
  induction m with
  | nil => rfl
  | cons kv tl ih =>
    rw [List.map_cons, alistLookup_cons, alistLookup_cons]
    by_cases hk : (kv.1 == k) = true
    · rw [if_pos hk]
      have h1 : (k == k') = false := by
        simp only [beq_eq_false_iff_ne]
        exact fun e => h e.symm
      have h2 : (kv.1 == k') = false := by
        simp only [beq_eq_false_iff_ne]
        have he : kv.1 = k := by simpa using hk
        rw [he]
        exact fun e => h e.symm
      rw [if_neg (by simp [h1]), if_neg (by simp [h2]), ih]
    · rw [if_neg hk]
      by_cases hk' : (kv.1 == k') = true
      · rw [if_pos hk', if_pos hk']
      · rw [if_neg hk', if_neg hk', ih]

theorem lookup_append_single_other (m : FMap) (k v k' : ByteStr) (h : k' ≠ k) :
    alistLookup (m ++ [(k, v)]) k' = alistLookup m k' := by
  induction m with
  | nil =>
    rw [List.nil_append, alistLookup_cons]
    have h1 : (k == k') = false := by
      simp only [beq_eq_false_iff_ne]
      exact fun e => h e.symm
    rw [if_neg (by simp [h1])]
  | cons kv tl ih =>
    rw [List.cons_append, alistLookup_cons, alistLookup_cons, ih]

theorem lookup_set_other (m : FMap) (k v k' : ByteStr) (h : k' ≠ k) :
    alistLookup (alistSet m k v) k' = alistLookup m k' := by
  rw [alistSet]
  split
  · exact lookup_map_update_other m k v k' h
  · exact lookup_append_single_other m k v k' h

theorem mem_alistSet (m : FMap) (k v : ByteStr) (kv' : ByteStr × ByteStr)
    (h : kv' ∈ alistSet m k v) : kv' ∈ m ∨ kv' = (k, v) := by
  rw [alistSet] at h
  split at h
  · rw [List.mem_map] at h
    obtain ⟨kv, hkv, he⟩ := h
    by_cases hk : (kv.1 == k) = true
    · rw [if_pos hk] at he
      exact Or.inr he.symm
    · rw [if_neg hk] at he
      exact Or.inl (he ▸ hkv)
  · rcases List.mem_append.1 h with h | h
    · exact Or.inl h
    · exact Or.inr (by simpa using h)

theorem keysOf_set_of_any (m : FMap) (k v : ByteStr)
    (h : (m.any fun kv => kv.1 == k) = true) :
    keysOf (alistSet m k v) = keysOf m := by
  rw [alistSet, if_pos h, keysOf, keysOf, List.map_map]
  apply List.map_congr_left
  intro kv _
  by_cases hk : (kv.1 == k) = true
  · simp only [Function.comp_apply, if_pos hk]
    exact (by simpa using hk : kv.1 = k).symm
  · simp only [Function.comp_apply, if_neg hk]

theorem keysOf_set_of_not_any (m : FMap) (k v : ByteStr)
    (h : ¬ (m.any fun kv => kv.1 == k) = true) :
    keysOf (alistSet m k v) = keysOf m ++ [k] := by
  rw [alistSet, if_neg h, keysOf, keysOf, List.map_append]
  rfl

theorem nodup_keys_set (m : FMap) (k v : ByteStr) (h : (keysOf m).Nodup) :
    (keysOf (alistSet m k v)).Nodup := by
  by_cases ha : (m.any fun kv => kv.1 == k) = true
  · rw [keysOf_set_of_any m k v ha]
    exact h
  · rw [keysOf_set_of_not_any m k v ha]
    rw [List.nodup_append]
    refine ⟨h, List.nodup_singleton k, ?_⟩
    intro a hma hk1
    have : a = k := by simpa using hk1
    subst this
    apply ha
    rw [List.any_eq_true]
    rw [keysOf, List.mem_map] at hma
    obtain ⟨kv, hkv, he⟩ := hma
    exact ⟨kv, hkv, by simp [he]⟩

theorem mem_of_alistLookup (m : FMap) (k v : ByteStr)
    (h : alistLookup m k = some v) : (k, v) ∈ m := by
  unfold alistLookup at h
  cases hf : m.find? fun kv => kv.1 == k with
  | none => rw [hf] at h; simp at h
  | some kv =>
    rw [hf] at h
    simp only [Option.map_some', Option.some.injEq] at h
    have hm := List.mem_of_find?_eq_some hf
    have hp := List.find?_some hf
    have h1 : kv.1 = k := by simpa using hp
    have : kv = (k, v) := by
      cases kv
      simp_all
    exact this ▸ hm

theorem alistLookup_eq_none_iff (m : FMap) (k : ByteStr) :
    alistLookup m k = none ↔ k ∉ keysOf m := by
  unfold alistLookup
  rw [Option.map_eq_none', List.find?_eq_none]
  constructor
  · intro h hk
    rw [keysOf, List.mem_map] at hk
    obtain ⟨kv, hm, he⟩ := hk
    have h2 := h kv hm
    simp only [Bool.not_eq_true, beq_eq_false_iff_ne] at h2
    exact h2 he
  · intro h kv hm
    simp only [Bool.not_eq_true, beq_eq_false_iff_ne]
    intro he
    exact h (by
      rw [keysOf, List.mem_map]
      exact ⟨kv, hm, he⟩)

theorem alistLookup_of_mem_nodup (m : FMap) (k v : ByteStr)
    (hnd : (keysOf m).Nodup) (hm : (k, v) ∈ m) : alistLookup m k = some v := by
  induction m with
  | nil => simp at hm
  | cons kv tl ih =>
    rw [alistLookup_cons]
    rcases List.mem_cons.1 hm with rfl | hm2
    · simp
    · have hk : kv.1 ≠ k := by
        intro he
        rw [keysOf, List.map_cons, List.nodup_cons] at hnd
        apply hnd.1
        rw [he, List.mem_map]
        exact ⟨(k, v), hm2, rfl⟩
      rw [if_neg (by simpa using hk)]
      rw [keysOf, List.map_cons, List.nodup_cons] at hnd
      exact ih hnd.2 hm2

/-! ## Behaviour of `setDefaults` and of the field-copying loop of `send` -/

theorem lookup_sdStep_other (m : FMap) (d k : ByteStr) (h : k ≠ d) :
    alistLookup (sdStep m d) k = alistLookup m k := by
  rw [sdStep]
  split
  · exact lookup_set_other m d [] k h
  · rfl

theorem sdFold_lookup (ds : List ByteStr) (m : FMap) (k : ByteStr) :
    alistLookup (ds.foldl sdStep m) k =
      if k ∈ ds ∧ (alistLookup m k).getD [] = [] then some []
      else alistLookup m k := by
  induction ds generalizing m with
  | nil => simp
  | cons d tl ih =>
    rw [List.foldl_cons, ih (sdStep m d)]
    by_cases hdk : k = d
    · subst hdk
      by_cases he : (alistLookup m k).getD [] = []
      · have hstep : alistLookup (sdStep m k) k = some [] := by
          rw [sdStep, if_pos he]
          exact lookup_set_self m k []
        simp only [hstep]
        simp [he]
      · have hstep : sdStep m k = m := by
          rw [sdStep, if_neg he]
        rw [hstep]
        simp [he]
    · have hstep : alistLookup (sdStep m d) k = alistLookup m k :=
        lookup_sdStep_other m d k hdk
      simp only [hstep]
      have hmem : (k ∈ d :: tl) ↔ (k ∈ tl) := by simp [List.mem_cons, hdk]
      simp only [hmem]

theorem mem_sdFold (ds : List ByteStr) (m : FMap) (kv : ByteStr × ByteStr)
    (h : kv ∈ ds.foldl sdStep m) : kv ∈ m ∨ (kv.1 ∈ ds ∧ kv.2 = []) := by
  induction ds generalizing m with
  | nil => exact Or.inl h
  | cons d tl ih =>
    rw [List.foldl_cons] at h
    rcases ih (sdStep m d) h with h2 | h2
    · rw [sdStep] at h2
      split at h2
      · rcases mem_alistSet m d [] kv h2 with h3 | h3
        · exact Or.inl h3
        · refine Or.inr ⟨?_, by rw [h3]⟩
          rw [h3]
          exact List.mem_cons_self d tl
      · exact Or.inl h2
    · exact Or.inr ⟨List.mem_cons_of_mem d h2.1, h2.2⟩

theorem nodup_keys_sdFold (ds : List ByteStr) (m : FMap)
    (h : (keysOf m).Nodup) : (keysOf (ds.foldl sdStep m)).Nodup := by
  induction ds generalizing m with
  | nil => exact h
  | cons d tl ih =>
    rw [List.foldl_cons]
    apply ih
    rw [sdStep]
    split
    · exact nodup_keys_set m d [] h
    · exact h

theorem lookup_brStep_other (m : FMap) (kv : ByteStr × ByteStr) (k : ByteStr)
    (h : kv.1 ≠ k) : alistLookup (brStep m kv) k = alistLookup m k := by
  rw [brStep]
  split
  · exact lookup_set_other m kv.1 kv.2 k (fun e => h e.symm)
  · rfl

theorem brFold_lookup_skip (l : FMap) (m : FMap) (k : ByteStr)
    (h : ∀ kv ∈ l, kv.1 = k → kv.2 = [] ∨ k = fileKey) :
    alistLookup (l.foldl brStep m) k = alistLookup m k := by
  induction l generalizing m with
  | nil => rfl
  | cons kv tl ih =>
    rw [List.foldl_cons]
    rw [ih (brStep m kv) (fun kv' hm => h kv' (List.mem_cons_of_mem kv hm))]
    by_cases hk : kv.1 = k
    · rw [brStep]
      rcases h kv (List.mem_cons_self kv tl) hk with h2 | h2
      · rw [if_neg (by
          intro hc
          exact hc.1 h2)]
      · rw [if_neg (by
          intro hc
          exact hc.2 (hk.trans h2))]
    · exact lookup_brStep_other m kv k hk

theorem brFold_lookup_mem (l : FMap) (m : FMap) (k v : ByteStr)
    (hnd : (keysOf l).Nodup) (hm : (k, v) ∈ l) (hv : v ≠ []) (hk : k ≠ fileKey) :
    alistLookup (l.foldl brStep m) k = some v := by
  induction l generalizing m with
  | nil => simp at hm
  | cons kv tl ih =>
    rw [List.foldl_cons]
    rcases List.mem_cons.1 hm with rfl | hm2
    · have hnotin : ∀ kv' ∈ tl, kv'.1 ≠ k := by
        intro kv' hkv' he
        rw [keysOf, List.map_cons, List.nodup_cons] at hnd
        exact hnd.1 (by
          rw [List.mem_map]
          exact ⟨kv', hkv', he⟩)
      rw [brFold_lookup_skip tl _ k (fun kv' hm' he => absurd he (hnotin kv' hm'))]
      rw [brStep, if_pos ⟨hv, hk⟩, lookup_set_self]
    · have hk1 : kv.1 ≠ k := by
        intro he
        rw [keysOf, List.map_cons, List.nodup_cons] at hnd
        apply hnd.1
        rw [he, List.mem_map]
        exact ⟨(k, v), hm2, rfl⟩
      rw [keysOf, List.map_cons, List.nodup_cons] at hnd
      exact ih (brStep m kv) hnd.2 hm2

theorem mem_brFold (l : FMap) (m : FMap) (kv' : ByteStr × ByteStr)
    (h : kv' ∈ l.foldl brStep m) : kv' ∈ m ∨ kv' ∈ l := by
  induction l generalizing m with
  | nil => exact Or.inl h
  | cons kv tl ih =>
    rw [List.foldl_cons] at h
    rcases ih (brStep m kv) h with h2 | h2
    · rw [brStep] at h2
      split at h2
      · rcases mem_alistSet m kv.1 kv.2 kv' h2 with h3 | h3
        · exact Or.inl h3
        · exact Or.inr (by rw [h3]; exact List.mem_cons_self kv tl)
      · exact Or.inl h2
    · exact Or.inr (List.mem_cons_of_mem kv h2)

theorem nodup_keys_brFold (l : FMap) (m : FMap)
    (h : (keysOf m).Nodup) : (keysOf (l.foldl brStep m)).Nodup := by
  induction l generalizing m with
  | nil => exact h
  | cons kv tl ih =>
    rw [List.foldl_cons]
    apply ih
    rw [brStep]
    split
    · exact nodup_keys_set m kv.1 kv.2 h
    · exact h

/-! ## Claim C5: the request map -/

theorem brFold_cred (o : FMap) (m0 : FMap) (k t0 : ByteStr)
    (hnd : (keysOf o).Nodup) (hk : k ≠ fileKey)
    (hm0 : alistLookup m0 k = some t0) :
    alistLookup (o.foldl brStep m0) k =
      some (if (alistLookup o k).getD [] ≠ [] then (alistLookup o k).getD [] else t0) := by
  cases hl : alistLookup o k with
  | none =>
    rw [brFold_lookup_skip o m0 k (by
      intro kv hm he
      have : alistLookup o k = some kv.2 := by
        have hkv : (k, kv.2) ∈ o := by
          have : kv = (k, kv.2) := by
            cases kv
            simp_all
          exact this ▸ hm
        exact alistLookup_of_mem_nodup o k kv.2 hnd hkv
      rw [hl] at this
      exact absurd this (by simp)), hm0]
    simp [hl]
  | some v =>
    by_cases hv : v = []
    · subst hv
      rw [brFold_lookup_skip o m0 k (by
        intro kv hm he
        left
        have hkv : (k, kv.2) ∈ o := by
          have : kv = (k, kv.2) := by
            cases kv
            simp_all
          exact this ▸ hm
        have := alistLookup_of_mem_nodup o k kv.2 hnd hkv
        rw [hl] at this
        simpa using this.symm), hm0]
      simp [hl]
    · have hmem : (k, v) ∈ o := mem_of_alistLookup o k v hl
      rw [brFold_lookup_mem o m0 k v hnd hmem hv hk]
      simp [hl, hv]

theorem tokenKey_not_in_defList : tokenKey ∉ defList := by decide

theorem userKey_not_in_defList : userKey ∉ defList := by decide

theorem sd_lookup_not_def (obj : FMap) (k : ByteStr) (h : k ∉ defList) :
    alistLookup (setDefaults obj) k = alistLookup obj k := by
  rw [setDefaults, sdFold_lookup]
  rw [if_neg (by
    intro hc
    exact h hc.1)]

/-- Merging of `if x ≠ [] then x else (if t ≠ [] then t else x)`. -/
theorem cred_formula (ot tv : ByteStr) :
    (if ot ≠ [] then ot else (if tv ≠ [] then tv else ot)) =
      (if ot ≠ [] then ot else tv) := by
  by_cases h1 : ot = []
  · subst h1
    by_cases h2 : tv = []
    · subst h2
      simp
    · simp [h2]
  · simp [h1]

/-- C5: the request map `send` passes to the encoder holds `token` and `user`
equal to the instance credentials unless the message carries a non-empty
per-call override, which then takes effect (the copying loop assigns over the
initial credential entries); every other non-empty field of the message
except `file` is copied in under its own key with its exact value, and no
`file` key is ever present. -/
theorem c5_request_map (t u : ByteStr) (obj : FMap) (hnd : (keysOf obj).Nodup) :
    alistLookup (buildReqString t u (setDefaults obj)) tokenKey =
      some (if (alistLookup obj tokenKey).getD [] ≠ []
            then (alistLookup obj tokenKey).getD [] else t)
    ∧ alistLookup (buildReqString t u (setDefaults obj)) userKey =
      some (if (alistLookup obj userKey).getD [] ≠ []
            then (alistLookup obj userKey).getD [] else u)
    ∧ (∀ k v, (k, v) ∈ obj → v ≠ [] → k ≠ fileKey →
        alistLookup (buildReqString t u (setDefaults obj)) k = some v)
    ∧ alistLookup (buildReqString t u (setDefaults obj)) fileKey = none := by
  have hndsd : (keysOf (setDefaults obj)).Nodup := nodup_keys_sdFold defList obj hnd
  have hsdtok : alistLookup (setDefaults obj) tokenKey = alistLookup obj tokenKey :=
    sd_lookup_not_def obj tokenKey tokenKey_not_in_defList
  have hsdusr : alistLookup (setDefaults obj) userKey = alistLookup obj userKey :=
    sd_lookup_not_def obj userKey userKey_not_in_defList
  refine ⟨?_, ?_, ?_, ?_⟩
  · rw [buildReqString]
    rw [brFold_cred (setDefaults obj) _ tokenKey _ hndsd (by decide)
      (alistLookup_self_cons tokenKey _ _)]
    rw [hsdtok, cred_formula]
  · rw [buildReqString]
    rw [brFold_cred (setDefaults obj) _ userKey _ hndsd (by decide) (by
      rw [alistLookup_cons, if_neg (by
        show ¬(tokenKey == userKey) = true
        decide)]
      exact alistLookup_self_cons userKey _ _)]
    rw [hsdusr, cred_formula]
  · intro k v hm hv hk
    have hlo : alistLookup obj k = some v := alistLookup_of_mem_nodup obj k v hnd hm
    have hsd : alistLookup (setDefaults obj) k = some v := by
      rw [setDefaults, sdFold_lookup]
      rw [if_neg (by
        intro hc
        rw [hlo] at hc
        exact hv (by simpa using hc.2))]
      exact hlo
    have hmsd : (k, v) ∈ setDefaults obj := mem_of_alistLookup _ _ _ hsd
    rw [buildReqString]
    exact brFold_lookup_mem (setDefaults obj) _ k v hndsd hmsd hv hk
  · rw [buildReqString]
    rw [brFold_lookup_skip (setDefaults obj) _ fileKey (by
      intro kv hm he
      exact Or.inr rfl)]
    rw [alistLookup_cons, if_neg (by
      show ¬(tokenKey == fileKey) = true
      decide)]
    rw [alistLookup_cons, if_neg (by
      show ¬(userKey == fileKey) = true
      decide)]
    rfl

/-- Witness for `c5_request_map` at a concrete message. -/
theorem c5_request_map_witness :
    (keysOf [(bytes "message", bytes "hello")]).Nodup
    ∧ alistLookup (buildReqString (bytes "T") (bytes "U")
        (setDefaults [(bytes "message", bytes "hello")])) tokenKey =
      some (if (alistLookup [(bytes "message", bytes "hello")] tokenKey).getD [] ≠ []
            then (alistLookup [(bytes "message", bytes "hello")] tokenKey).getD []
            else bytes "T") :=
  ⟨by decide,
   (c5_request_map (bytes "T") (bytes "U") [(bytes "message", bytes "hello")]
      (by decide)).1⟩

/-! ## Claim C3: no empty-valued parts -/

theorem validB_nil : validB [] := by
  intro x hx
  simp at hx

theorem defList_valid : ∀ k ∈ defList, validB k := by decide

theorem valid_sd_values (obj : FMap)
    (hvo : ∀ kv ∈ obj, validB kv.1 ∧ validB kv.2) :
    ∀ kv ∈ setDefaults obj, validB kv.1 ∧ validB kv.2 := by
  intro kv hm
  rcases mem_sdFold defList obj kv hm with h | h
  · exact hvo kv h
  · exact ⟨defList_valid kv.1 h.1, h.2 ▸ validB_nil⟩

theorem valid_sd_lookup (obj : FMap) (k : ByteStr)
    (hvo : ∀ kv ∈ obj, validB kv.1 ∧ validB kv.2) :
    validB ((alistLookup (setDefaults obj) k).getD []) := by
  cases hl : alistLookup (setDefaults obj) k with
  | none => exact validB_nil
  | some w =>
    have hm := mem_of_alistLookup _ _ _ hl
    exact (valid_sd_values obj hvo (k, w) hm).2

theorem valid_buildReqString (t u : ByteStr) (obj : FMap)
    (hvt : validB t) (hvu : validB u)
    (hvo : ∀ kv ∈ obj, validB kv.1 ∧ validB kv.2) :
    ∀ kv ∈ buildReqString t u (setDefaults obj), validB kv.1 ∧ validB kv.2 := by
  intro kv hm
  rw [buildReqString] at hm
  rcases mem_brFold _ _ kv hm with h | h
  · rcases List.mem_cons.1 h with rfl | h2
    · refine ⟨by
        show validB tokenKey
        decide, ?_⟩
      by_cases ht : t ≠ []
      · simpa [ht] using hvt
      · simp only [if_neg ht]
        exact valid_sd_lookup obj tokenKey hvo
    · rcases List.mem_cons.1 h2 with rfl | h3
      · refine ⟨by
          show validB userKey
          decide, ?_⟩
        by_cases hu : u ≠ []
        · simpa [hu] using hvu
        · simp only [if_neg hu]
          exact valid_sd_lookup obj userKey hvo
      · simp at h3
  · exact valid_sd_values obj hvo kv h

/-- C3: the stringify/parse round trip returns exactly the request map built
by `send`, so the parts the encoder emits are exactly the map's entries with
non-empty values: no part ever carries an empty value, a non-empty message
field (other than `file`) appears as a part with its literal value, and a
recognized optional field that is absent or empty in the message never
appears as a part.  The final conjunct identifies the encoded body with the
body built directly from the map. -/
theorem c3_no_empty_parts (t u : ByteStr) (obj : FMap)
    (hnd : (keysOf obj).Nodup)
    (hvt : validB t) (hvu : validB u)
    (hvo : ∀ kv ∈ obj, validB kv.1 ∧ validB kv.2) :
    parseQS (stringifyQS (buildReqString t u (setDefaults obj))) =
      buildReqString t u (setDefaults obj)
    ∧ (∀ kv, kv ∈ (buildReqString t u (setDefaults obj)).filter
          (fun kv => decide (kv.2 ≠ [])) → kv.2 ≠ [])
    ∧ (∀ k v, (k, v) ∈ obj → v ≠ [] → k ≠ fileKey →
        (k, v) ∈ (buildReqString t u (setDefaults obj)).filter
          (fun kv => decide (kv.2 ≠ [])))
    ∧ (∀ k, k ∈ defList → (∀ v', (k, v') ∈ obj → v' = []) →
        ∀ v, (k, v) ∉ (buildReqString t u (setDefaults obj)).filter
          (fun kv => decide (kv.2 ≠ [])))
    ∧ (∀ b img, reqString2MP (stringifyQS (buildReqString t u (setDefaults obj))) b img =
        mp2Core (buildReqString t u (setDefaults obj)) b img) := by
  have hrt : parseQS (stringifyQS (buildReqString t u (setDefaults obj))) =
      buildReqString t u (setDefaults obj) :=
    parseQS_stringifyQS _ (valid_buildReqString t u obj hvt hvu hvo)
  have hndsd : (keysOf (setDefaults obj)).Nodup := nodup_keys_sdFold defList obj hnd
  refine ⟨hrt, ?_, ?_, ?_, ?_⟩
  · intro kv hm
    have := List.of_mem_filter hm
    simpa using this
  · intro k v hm hv hk
    have hlo : alistLookup obj k = some v := alistLookup_of_mem_nodup obj k v hnd hm
    have hsd : alistLookup (setDefaults obj) k = some v := by
      rw [setDefaults, sdFold_lookup]
      rw [if_neg (by
        intro hc
        rw [hlo] at hc
        exact hv (by simpa using hc.2))]
      exact hlo
    have hmsd : (k, v) ∈ setDefaults obj := mem_of_alistLookup _ _ _ hsd
    have hfold : alistLookup (buildReqString t u (setDefaults obj)) k = some v := by
      rw [buildReqString]
      exact brFold_lookup_mem (setDefaults obj) _ k v hndsd hmsd hv hk
    have hmem : (k, v) ∈ buildReqString t u (setDefaults obj) :=
      mem_of_alistLookup _ _ _ hfold
    exact List.mem_filter.2 ⟨hmem, by simpa using hv⟩
  · intro k hdef hemp v hmf
    have hv : v ≠ [] := by simpa using List.of_mem_filter hmf
    have hmem : (k, v) ∈ buildReqString t u (setDefaults obj) :=
      List.mem_of_mem_filter hmf
    rw [buildReqString] at hmem
    rcases mem_brFold _ _ _ hmem with h | h
    · rcases List.mem_cons.1 h with he | h2
      · have : k = tokenKey := congrArg Prod.fst he
        exact tokenKey_not_in_defList (this ▸ hdef)
      · rcases List.mem_cons.1 h2 with he | h3
        · have : k = userKey := congrArg Prod.fst he
          exact userKey_not_in_defList (this ▸ hdef)
        · simp at h3
    · rcases mem_sdFold defList obj (k, v) h with h2 | h2
      · exact hv (hemp v h2)
      · exact hv h2.2
  · intro b img
    rw [reqString2MP, hrt]

/-- Witness for `c3_no_empty_parts` at a concrete message. -/
theorem c3_no_empty_parts_witness :
    (keysOf [(bytes "message", bytes "hello")]).Nodup
    ∧ validB (bytes "T") ∧ validB (bytes "U")
    ∧ (∀ kv ∈ [(bytes "message", bytes "hello")], validB kv.1 ∧ validB kv.2)
    ∧ parseQS (stringifyQS (buildReqString (bytes "T") (bytes "U")
        (setDefaults [(bytes "message", bytes "hello")]))) =
      buildReqString (bytes "T") (bytes "U")
        (setDefaults [(bytes "message", bytes "hello")]) :=
  ⟨by decide, by decide, by decide, by decide,
   (c3_no_empty_parts (bytes "T") (bytes "U") [(bytes "message", bytes "hello")]
      (by decide) (by decide) (by decide) (by decide)).1⟩

/-! ## Claim C7: the attachment part -/

/-- The header-name portion marking the attachment part. -/
def attachMarker : ByteStr := bytes "Content-Disposition: form-data; name=\"attachment\""

/-- Does a line open the attachment part? -/
def isAttachLine (l : ByteStr) : Bool := attachMarker.isPrefixOf l

theorem isAttachLine_cdAttach (nm : ByteStr) : isAttachLine (cdAttachLine nm) = true := by
  rw [isAttachLine, List.isPrefixOf_iff_prefix, cdAttachLine]
  have h1 : attachMarker <+:
      bytes "Content-Disposition: form-data; name=\"attachment\"; filename=\"" := by
    decide
  exact (h1.trans (List.prefix_append _ nm)).trans (List.prefix_append _ [34])

theorem isAttachLine_ct_ty (ty : ByteStr) :
    isAttachLine (bytes "Content-Type: " ++ ty) = false := by
  rw [isAttachLine]
  by_contra hc
  rw [Bool.not_eq_false, List.isPrefixOf_iff_prefix] at hc
  obtain ⟨r, hr⟩ := hc
  have e1 : (attachMarker ++ r).take 9 = attachMarker.take 9 :=
    List.take_append_of_le_length (by decide)
  have e2 : (bytes "Content-Type: " ++ ty).take 9 = (bytes "Content-Type: ").take 9 :=
    List.take_append_of_le_length (by decide)
  rw [hr, e2] at e1
  revert e1
  decide

theorem isAttachLine_ctLine (im : Img) : isAttachLine (ctLine im) = false := by
  rw [ctLine]
  cases im.type with
  | some ty => exact isAttachLine_ct_ty ty
  | none => decide

theorem countP_quads_zero (l : FMap) (b : ByteStr)
    (hb : isAttachLine b = false)
    (h : ∀ kv ∈ l, isAttachLine (cdLine kv.1) = false ∧ isAttachLine kv.2 = false) :
    ((l.flatMap (quadLines b)).countP isAttachLine) = 0 := by
  induction l with
  | nil => rfl
  | cons kv tl ih =>
    rw [List.flatMap_cons, List.countP_append]
    have hhd := h kv (List.mem_cons_self kv tl)
    rw [quadLines]
    have hnil : isAttachLine [] = false := by decide
    simp only [List.countP_cons, List.countP_nil, hhd.1, hhd.2, hb, hnil,
      Bool.false_eq_true, if_false, Nat.add_zero, Nat.zero_add]
    exact ih (fun kv' hm => h kv' (List.mem_cons_of_mem kv hm))

theorem countP_fieldArr_zero (o : FMap) (b : ByteStr)
    (hb : isAttachLine b = false)
    (ho : ∀ kv ∈ o, isAttachLine (cdLine kv.1) = false ∧ isAttachLine kv.2 = false) :
    ((fieldArr o b).countP isAttachLine) = 0 := by
  rw [fieldArr]
  rw [List.countP_cons]
  simp only [hb, if_false, Nat.add_zero]
  exact countP_quads_zero _ b hb
    (fun kv hm => ho kv (List.mem_of_mem_filter hm))

/-- C7: the line array from which the body is joined contains exactly one
attachment `Content-Disposition` line when an attachment is supplied, and
none otherwise; the attachment header carries `filename=` followed by the
attachment's name; the `Content-Type` is the declared type or
`application/octet-stream` when no `type` property exists; and a path input
loads into an attachment named by the path's basename with the raw file
bytes and no declared type. -/
theorem c7_attachment_part (o : FMap) (b : ByteStr) (im : Img)
    (fsRead : ByteStr → ByteStr) (p nm dat ty : ByteStr)
    (hb : isAttachLine b = false)
    (ho : ∀ kv ∈ o, isAttachLine (cdLine kv.1) = false ∧ isAttachLine kv.2 = false) :
    ((fieldArr o b ++ [cdAttachLine im.name, ctLine im, [], []]).countP isAttachLine) = 1
    ∧ ((fieldArr o b).dropLast.countP isAttachLine) = 0
    ∧ mp2Core o b (some im) =
        joinSep crlf (fieldArr o b ++ [cdAttachLine im.name, ctLine im, [], []]) ++
          im.data ++ (crlf ++ b ++ dd ++ crlf)
    ∧ mp2Core o b none = joinSep crlf (fieldArr o b).dropLast ++ (b ++ dd ++ crlf)
    ∧ loadImage fsRead p = ⟨basename p, fsRead p, none⟩
    ∧ ctLine ⟨nm, dat, none⟩ = bytes "Content-Type: application/octet-stream"
    ∧ ctLine ⟨nm, dat, some ty⟩ = bytes "Content-Type: " ++ ty
    ∧ cdAttachLine im.name = attachMarker ++ bytes "; filename=\"" ++ im.name ++ [34] := by
  refine ⟨?_, ?_, rfl, rfl, rfl, rfl, rfl, ?_⟩
  · rw [List.countP_append, countP_fieldArr_zero o b hb ho]
    have hnil : isAttachLine [] = false := by decide
    simp only [List.countP_cons, List.countP_nil, isAttachLine_cdAttach,
      isAttachLine_ctLine, hnil, Bool.false_eq_true, if_false, if_true,
      Nat.zero_add, Nat.add_zero]
  · have hsub : (fieldArr o b).dropLast.Sublist (fieldArr o b) :=
      List.dropLast_sublist (fieldArr o b)
    have hle := hsub.countP_le isAttachLine
    rw [countP_fieldArr_zero o b hb ho] at hle
    exact Nat.le_zero.1 hle
  · rw [cdAttachLine]
    have hc : bytes "Content-Disposition: form-data; name=\"attachment\"; filename=\"" =
        attachMarker ++ bytes "; filename=\"" := by decide
    rw [hc]

/-- Witness for `c7_attachment_part` at a concrete input. -/
theorem c7_attachment_part_witness :
    isAttachLine (bytes "--X") = false
    ∧ (∀ kv ∈ ([(bytes "message", bytes "hi")] : FMap),
        isAttachLine (cdLine kv.1) = false ∧ isAttachLine kv.2 = false)
    ∧ ((fieldArr [(bytes "message", bytes "hi")] (bytes "--X") ++
        [cdAttachLine (bytes "i.png"),
         ctLine ⟨bytes "i.png", [1, 2], none⟩, [], []]).countP isAttachLine) = 1 :=
  ⟨by decide, by decide,
   (c7_attachment_part [(bytes "message", bytes "hi")] (bytes "--X")
      ⟨bytes "i.png", [1, 2], none⟩ (fun _ => [1, 2]) (bytes "d/i.png")
      (bytes "n") (bytes "d") (bytes "t") (by decide) (by decide)).1⟩

/-! ## Claim C2: the completion handler is called exactly once -/

theorem concatChunks_cons (c : ByteStr) (t : List TEv) :
    concatChunks (TEv.chunk c :: t) = c ++ concatChunks t := by
  rw [concatChunks, concatChunks, List.map_cons, List.flatten_cons]
  rfl

theorem sendFold_chunks_eq (onerror : Bool) (parse : ByteStr → Option JVal)
    (s : SendSt) (l : List TEv) (h : ∀ e ∈ l, isChunkB e = true)
    (hc : s.crashed = false) :
    l.foldl (sendStep onerror parse) s = { s with acc := s.acc ++ concatChunks l } := by
  induction l generalizing s with
  | nil =>
    simp [concatChunks]
  | cons e t ih =>
    cases e with
    | chunk c =>
      rw [List.foldl_cons]
      have hstep : sendStep onerror parse s (TEv.chunk c) = { s with acc := s.acc ++ c } := by
        rw [sendStep]
        simp [hc]
      rw [hstep, ih _ (fun e he => h e (List.mem_cons_of_mem _ he)) (by simp [hc])]
      simp [concatChunks_cons, List.append_assoc]
    | done =>
      have := h TEv.done (List.mem_cons_self _ t)
      simp [isChunkB] at this
    | fail =>
      have := h TEv.fail (List.mem_cons_self _ t)
      simp [isChunkB] at this

theorem sendFold_chunks_calls (onerror : Bool) (parse : ByteStr → Option JVal)
    (s : SendSt) (l : List TEv) (h : ∀ e ∈ l, isChunkB e = true) :
    (l.foldl (sendStep onerror parse) s).calls = s.calls
    ∧ (l.foldl (sendStep onerror parse) s).alive = s.alive
    ∧ (l.foldl (sendStep onerror parse) s).crashed = s.crashed := by
  induction l generalizing s with
  | nil => exact ⟨rfl, rfl, rfl⟩
  | cons e t ih =>
    cases e with
    | chunk c =>
      rw [List.foldl_cons]
      have hstep : (sendStep onerror parse s (TEv.chunk c)).calls = s.calls
          ∧ (sendStep onerror parse s (TEv.chunk c)).alive = s.alive
          ∧ (sendStep onerror parse s (TEv.chunk c)).crashed = s.crashed := by
        rw [sendStep]
        by_cases hc : s.crashed <;> simp [hc]
      obtain ⟨h1, h2, h3⟩ := hstep
      obtain ⟨h4, h5, h6⟩ := ih (sendStep onerror parse s (TEv.chunk c))
        (fun e he => h e (List.mem_cons_of_mem _ he))
      exact ⟨h4.trans h1, h5.trans h2, h6.trans h3⟩
    | done =>
      have := h TEv.done (List.mem_cons_self _ t)
      simp [isChunkB] at this
    | fail =>
      have := h TEv.fail (List.mem_cons_self _ t)
      simp [isChunkB] at this

theorem sendFold_dead (onerror : Bool) (parse : ByteStr → Option JVal)
    (s : SendSt) (l : List TEv) (ha : s.alive = false) :
    (l.foldl (sendStep onerror parse) s).calls = s.calls
    ∧ (l.foldl (sendStep onerror parse) s).alive = false := by
  induction l generalizing s with
  | nil => exact ⟨rfl, ha⟩
  | cons e t ih =>
    rw [List.foldl_cons]
    have hstep : (sendStep onerror parse s e).calls = s.calls
        ∧ (sendStep onerror parse s e).alive = false := by
      cases e with
      | chunk c =>
        rw [sendStep]
        by_cases hc : s.crashed <;> simp [hc, ha]
      | done =>
        rw [sendStep]
        by_cases hc : s.crashed
        · simp [hc, ha]
        · by_cases ht : sendThrows onerror parse s.acc <;> simp [hc, ha, ht]
      | fail =>
        rw [sendStep]
        by_cases hc : s.crashed <;> simp [hc, ha]
    obtain ⟨h1, h2⟩ := hstep
    obtain ⟨h3, h4⟩ := ih (sendStep onerror parse s e) h2
    exact ⟨h3.trans h1, h4⟩

theorem sendStep_fail_live (onerror : Bool) (parse : ByteStr → Option JVal)
    (s : SendSt) (hc : s.crashed = false) (ha : s.alive = true) :
    sendStep onerror parse s TEv.fail =
      { s with calls := s.calls ++ [SendCall.failure], alive := false } := by
  rw [sendStep]
  simp [hc, ha]

/-- State after a trace that opens with chunks and then the request error:
the callback has been called exactly once, with no arguments, and `fn` is
nulled, so nothing that follows can call it again. -/
theorem runSend_fail_first (onerror : Bool) (parse : ByteStr → Option JVal)
    (c1 rest : List TEv) (h1 : ∀ e ∈ c1, isChunkB e = true) :
    (runSend onerror parse (c1 ++ TEv.fail :: rest)).calls = [SendCall.failure] := by
  rw [runSend, List.foldl_append]
  rw [sendFold_chunks_eq onerror parse _ c1 h1 rfl]
  rw [List.foldl_cons]
  rw [sendStep_fail_live onerror parse _ rfl rfl]
  exact (sendFold_dead onerror parse _ rest rfl).1

/-- State after chunks followed by response end when `errors` does not throw:
the callback is called once with the accumulated body. -/
theorem runSend_done_first (onerror : Bool) (parse : ByteStr → Option JVal)
    (c1 rest : List TEv) (h1 : ∀ e ∈ c1, isChunkB e = true)
    (hrest : ∀ e ∈ rest, isChunkB e = true)
    (ht : sendThrows onerror parse (concatChunks c1) = false) :
    (runSend onerror parse (c1 ++ TEv.done :: rest)).calls =
      [SendCall.success (concatChunks c1)] := by
  rw [runSend, List.foldl_append]
  rw [sendFold_chunks_eq onerror parse _ c1 h1 rfl]
  rw [List.foldl_cons]
  have hstep : sendStep onerror parse
      ⟨[], true, [] ++ concatChunks c1, false⟩ TEv.done =
      ⟨[SendCall.success (concatChunks c1)], true, concatChunks c1, false⟩ := by
    rw [sendStep]
    simp [ht]
  rw [show ({ calls := [], alive := true, acc := [], crashed := false : SendSt} : SendSt) =
      (⟨[], true, [], false⟩ : SendSt) from rfl] at *
  rw [hstep]
  exact (sendFold_chunks_calls onerror parse _ rest hrest).1

/-- State after chunks followed by response end when `errors` throws: the
process crashes before the callback is reached. -/
theorem runSend_done_throw (onerror : Bool) (parse : ByteStr → Option JVal)
    (c1 rest : List TEv) (h1 : ∀ e ∈ c1, isChunkB e = true)
    (hrest : ∀ e ∈ rest, isChunkB e = true)
    (ht : sendThrows onerror parse (concatChunks c1) = true) :
    (runSend onerror parse (c1 ++ TEv.done :: rest)).calls = []
    ∧ (runSend onerror parse (c1 ++ TEv.done :: rest)).crashed = true := by
  rw [runSend, List.foldl_append]
  rw [sendFold_chunks_eq onerror parse _ c1 h1 rfl]
  rw [List.foldl_cons]
  have hstep : sendStep onerror parse
      ⟨[], true, [] ++ concatChunks c1, false⟩ TEv.done =
      ⟨[], true, [] ++ concatChunks c1, true⟩ := by
    rw [sendStep]
    simp [ht]
  rw [hstep]
  obtain ⟨hc1, _, hc3⟩ := sendFold_chunks_calls onerror parse _ rest hrest
  exact ⟨hc1, hc3⟩

theorem wf_parts (tr : List TEv) (h : wfTrace tr = true) :
    tr.countP isDoneB ≤ 1 ∧ tr.countP isFailB ≤ 1 ∧ hasDoneBeforeFail tr = false := by
  rw [wfTrace] at h
  simp only [Bool.and_eq_true, decide_eq_true_eq, Bool.not_eq_true'] at h
  exact ⟨h.1.1, h.1.2, h.2⟩

theorem wf_of_parts (tr : List TEv) (h1 : tr.countP isDoneB ≤ 1)
    (h2 : tr.countP isFailB ≤ 1) (h3 : hasDoneBeforeFail tr = false) :
    wfTrace tr = true := by
  rw [wfTrace]
  simp only [Bool.and_eq_true, decide_eq_true_eq, Bool.not_eq_true']
  exact ⟨⟨h1, h2⟩, h3⟩

theorem chunk_of_not_term (e : TEv) (hd : isDoneB e = false) (hf : isFailB e = false) :
    isChunkB e = true := by
  cases e <;> simp_all [isDoneB, isFailB, isChunkB]

theorem chunks_of_counts (t : List TEv) (hd : t.countP isDoneB = 0)
    (hf : t.countP isFailB = 0) : ∀ e ∈ t, isChunkB e = true := by
  intro e he
  have h1 := (List.countP_eq_zero.1 hd) e he
  have h2 := (List.countP_eq_zero.1 hf) e he
  exact chunk_of_not_term e (by simpa using h1) (by simpa using h2)

theorem single_done_split (t : List TEv) (h1 : t.countP isDoneB = 1)
    (hf : t.countP isFailB = 0) :
    ∃ d1 d2, t = d1 ++ TEv.done :: d2 ∧ (∀ e ∈ d1, isChunkB e = true)
      ∧ (∀ e ∈ d2, isChunkB e = true) := by
  induction t with
  | nil => simp at h1
  | cons e t' ih =>
    rw [List.countP_cons] at h1 hf
    cases e with
    | chunk c =>
      have hr1 : (if isDoneB (TEv.chunk c) = true then 1 else 0) = 0 := rfl
      have hr2 : (if isFailB (TEv.chunk c) = true then 1 else 0) = 0 := rfl
      rw [hr1] at h1
      rw [hr2] at hf
      have h1' : t'.countP isDoneB = 1 := by omega
      have hf' : t'.countP isFailB = 0 := by omega
      obtain ⟨d1, d2, heq, hc1, hc2⟩ := ih h1' hf'
      refine ⟨TEv.chunk c :: d1, d2, by rw [heq]; rfl, ?_, hc2⟩
      intro e he
      rcases List.mem_cons.1 he with rfl | he2
      · rfl
      · exact hc1 e he2
    | done =>
      have hr1 : (if isDoneB TEv.done = true then 1 else 0) = 1 := rfl
      have hr2 : (if isFailB TEv.done = true then 1 else 0) = 0 := rfl
      rw [hr1] at h1
      rw [hr2] at hf
      have h1' : t'.countP isDoneB = 0 := by omega
      have hf' : t'.countP isFailB = 0 := by omega
      exact ⟨[], t', rfl, by simp, chunks_of_counts t' h1' hf'⟩
    | fail =>
      have hr2 : (if isFailB TEv.fail = true then 1 else 0) = 1 := rfl
      rw [hr2] at hf
      omega

theorem hdbf_tail (e : TEv) (t : List TEv)
    (h : hasDoneBeforeFail (e :: t) = false) : hasDoneBeforeFail t = false := by
  rw [hasDoneBeforeFail] at h
  simp only [Bool.or_eq_false_iff] at h
  exact h.2

theorem hdbf_done_head (t : List TEv)
    (h : hasDoneBeforeFail (TEv.done :: t) = false) : t.any isFailB = false := by
  rw [hasDoneBeforeFail] at h
  simp only [Bool.or_eq_false_iff, Bool.and_eq_false_iff] at h
  rcases h.1 with h1 | h1
  · simp [isDoneB] at h1
  · exact h1

theorem hdbf_append_done (c1 c2 : List TEv)
    (h : hasDoneBeforeFail (c1 ++ TEv.done :: c2) = false) :
    c2.any isFailB = false := by
  induction c1 with
  | nil => exact hdbf_done_head c2 h
  | cons e t ih =>
    rw [List.cons_append] at h
    exact ih (hdbf_tail e _ h)

/-- Every well-formed trace is chunks only, chunks around a single `end`,
chunks around a single `error`, or chunks with an `error` followed later by a
(spurious) `end`. -/
theorem wf_decomp (tr : List TEv) (h : wfTrace tr = true) :
    (∀ e ∈ tr, isChunkB e = true)
    ∨ (∃ c1 c2, tr = c1 ++ TEv.done :: c2 ∧ (∀ e ∈ c1, isChunkB e = true)
        ∧ (∀ e ∈ c2, isChunkB e = true))
    ∨ (∃ c1 c2, tr = c1 ++ TEv.fail :: c2 ∧ (∀ e ∈ c1, isChunkB e = true)
        ∧ (∀ e ∈ c2, isChunkB e = true))
    ∨ (∃ c1 c2 c3, tr = c1 ++ TEv.fail :: (c2 ++ TEv.done :: c3)
        ∧ (∀ e ∈ c1, isChunkB e = true) ∧ (∀ e ∈ c2, isChunkB e = true)
        ∧ (∀ e ∈ c3, isChunkB e = true)) := by
  induction tr with
  | nil => exact Or.inl (by simp)
  | cons e t ih =>
    obtain ⟨hd, hf, hb⟩ := wf_parts _ h
    rw [List.countP_cons] at hd hf
    have hwt : wfTrace t = true :=
      wf_of_parts t (by omega) (by omega) (hdbf_tail e t hb)
    cases e with
    | chunk c =>
      rcases ih hwt with h1 | ⟨c1, c2, heq, hc1, hc2⟩ | ⟨c1, c2, heq, hc1, hc2⟩ |
          ⟨c1, c2, c3, heq, hc1, hc2, hc3⟩
      · refine Or.inl ?_
        intro e he
        rcases List.mem_cons.1 he with rfl | he2
        · rfl
        · exact h1 e he2
      · refine Or.inr (Or.inl ⟨TEv.chunk c :: c1, c2, by rw [heq]; rfl, ?_, hc2⟩)
        intro e he
        rcases List.mem_cons.1 he with rfl | he2
        · rfl
        · exact hc1 e he2
      · refine Or.inr (Or.inr (Or.inl ⟨TEv.chunk c :: c1, c2, by rw [heq]; rfl, ?_, hc2⟩))
        intro e he
        rcases List.mem_cons.1 he with rfl | he2
        · rfl
        · exact hc1 e he2
      · refine Or.inr (Or.inr (Or.inr
          ⟨TEv.chunk c :: c1, c2, c3, by rw [heq]; rfl, ?_, hc2, hc3⟩))
        intro e he
        rcases List.mem_cons.1 he with rfl | he2
        · rfl
        · exact hc1 e he2
    | done =>
      have hfa : t.any isFailB = false := hdbf_done_head t hb
      have hr1 : (if isDoneB TEv.done = true then 1 else 0) = 1 := rfl
      rw [hr1] at hd
      have hdt : t.countP isDoneB = 0 := by omega
      have hft : t.countP isFailB = 0 := by
        rw [List.countP_eq_zero]
        intro e he
        have := (List.any_eq_false.1 hfa) e he
        simpa using this
      exact Or.inr (Or.inl ⟨[], t, rfl, by simp, chunks_of_counts t hdt hft⟩)
    | fail =>
      have hr2 : (if isFailB TEv.fail = true then 1 else 0) = 1 := rfl
      rw [hr2] at hf
      have hft : t.countP isFailB = 0 := by omega
      cases hdt : t.countP isDoneB with
      | zero =>
        exact Or.inr (Or.inr (Or.inl ⟨[], t, rfl, by simp,
          chunks_of_counts t hdt hft⟩))
      | succ n =>
        have h1 : t.countP isDoneB = 1 := by omega
        obtain ⟨d1, d2, heq, hc1, hc2⟩ := single_done_split t h1 hft
        exact Or.inr (Or.inr (Or.inr ⟨[], d1, d2, by rw [heq]; rfl, by simp, hc1, hc2⟩))

/-- C2: over every well-formed transport trace, the completion handler is
called at most once; it is called exactly once whenever some terminal event
occurs and the `errors` call at response end did not crash the process; a
trace whose first terminal event is the request `error` yields exactly the
single call `fn(err)` — any later completion is suppressed by the `fn = null`
guard; and a trace whose first terminal event is the response `end` (with
`errors` not throwing) yields exactly the single call `fn(err, data, res)`
with the fully accumulated body. -/
theorem c2_callback_exactly_once (onerror : Bool) (parse : ByteStr → Option JVal)
    (tr : List TEv) (hwf : wfTrace tr = true) :
    (runSend onerror parse tr).calls.length ≤ 1
    ∧ ((∃ e ∈ tr, isChunkB e = false) → (runSend onerror parse tr).crashed = false →
        (runSend onerror parse tr).calls.length = 1)
    ∧ (∀ c1 c2, tr = c1 ++ TEv.fail :: c2 → (∀ e ∈ c1, isChunkB e = true) →
        (runSend onerror parse tr).calls = [SendCall.failure])
    ∧ (∀ c1 c2, tr = c1 ++ TEv.done :: c2 → (∀ e ∈ c1, isChunkB e = true) →
        sendThrows onerror parse (concatChunks c1) = false →
        (runSend onerror parse tr).calls = [SendCall.success (concatChunks c1)]) := by
  refine ⟨?_, ?_, ?_, ?_⟩
  · rcases wf_decomp tr hwf with h1 | ⟨c1, c2, heq, hc1, hc2⟩ | ⟨c1, c2, heq, hc1, _⟩ |
        ⟨c1, c2, c3, heq, hc1, _, _⟩
    · rw [runSend, sendFold_chunks_eq onerror parse _ tr h1 rfl]
      simp
    · subst heq
      by_cases ht : sendThrows onerror parse (concatChunks c1) = true
      · rw [(runSend_done_throw onerror parse c1 c2 hc1 hc2 ht).1]
        simp
      · rw [runSend_done_first onerror parse c1 c2 hc1 hc2 (by simpa using ht)]
        simp
    · subst heq
      rw [runSend_fail_first onerror parse c1 c2 hc1]
      simp
    · subst heq
      rw [runSend_fail_first onerror parse c1 _ hc1]
      simp
  · intro hterm hcr
    rcases wf_decomp tr hwf with h1 | ⟨c1, c2, heq, hc1, hc2⟩ | ⟨c1, c2, heq, hc1, _⟩ |
        ⟨c1, c2, c3, heq, hc1, _, _⟩
    · obtain ⟨e, he, hne⟩ := hterm
      exact absurd (h1 e he) (by simp [hne])
    · subst heq
      by_cases ht : sendThrows onerror parse (concatChunks c1) = true
      · rw [(runSend_done_throw onerror parse c1 c2 hc1 hc2 ht).2] at hcr
        simp at hcr
      · rw [runSend_done_first onerror parse c1 c2 hc1 hc2 (by simpa using ht)]
        rfl
    · subst heq
      rw [runSend_fail_first onerror parse c1 c2 hc1]
      rfl
    · subst heq
      rw [runSend_fail_first onerror parse c1 _ hc1]
      rfl
  · intro c1 c2 heq hc1
    subst heq
    exact runSend_fail_first onerror parse c1 c2 hc1
  · intro c1 c2 heq hc1 ht
    subst heq
    obtain ⟨hd, hf, hb⟩ := wf_parts _ hwf
    have hfc2 : c2.any isFailB = false := hdbf_append_done c1 c2 hb
    have hdc2 : c2.countP isDoneB = 0 := by
      rw [List.countP_append, List.countP_cons] at hd
      simp [isDoneB] at hd
      omega
    have hc2 : ∀ e ∈ c2, isChunkB e = true := by
      intro e he
      refine chunk_of_not_term e ?_ ?_
      · simpa using (List.countP_eq_zero.1 hdc2) e he
      · simpa using (List.any_eq_false.1 hfc2) e he
    exact runSend_done_first onerror parse c1 c2 hc1 hc2 ht

/-- Witness for `c2_callback_exactly_once`: a single data chunk followed by
`end`, with a response that parses cleanly. -/
theorem c2_callback_exactly_once_witness :
    wfTrace [TEv.chunk [97], TEv.done] = true
    ∧ (runSend false (fun _ => some ⟨none, none⟩)
        [TEv.chunk [97], TEv.done]).calls =
      [SendCall.success (concatChunks [TEv.chunk [97]])] :=
  ⟨by decide,
   (c2_callback_exactly_once false (fun _ => some ⟨none, none⟩)
      [TEv.chunk [97], TEv.done] (by decide)).2.2.2 [TEv.chunk [97]] []
      rfl (by decide) rfl⟩

/-! ## Claim C6: the sound-table refresh -/

/-- C6: a successful refresh (valid JSON, no `errors` property, a `sounds`
mapping present) replaces the table wholesale with the parsed mapping,
independently of the previous table — old keys not in the response are gone;
a transport failure or a JSON-parse failure leaves the table untouched and
goes through the `errors` reporting path (on parse failure with a configured
handler, a parse-failure report is delivered); and in every case the
resulting table is either the old table unchanged or the `sounds` value of a
successfully parsed body — never a partial mix. -/
theorem c6_sound_table_refresh (onerror : Bool) (t0 : Option FMap)
    (j : JVal) (m : FMap) (hs : j.errs = none) (hm : j.snds = some m) :
    (updateSoundsRun onerror t0 (USOut.body (some j))).table = some m
    ∧ (updateSoundsRun onerror t0 USOut.terr).table = t0
    ∧ (updateSoundsRun onerror t0 USOut.terr).errCalled = true
    ∧ (updateSoundsRun onerror t0 (USOut.body none)).table = t0
    ∧ (updateSoundsRun onerror t0 (USOut.body none)).errCalled = true
    ∧ (onerror = true →
        (updateSoundsRun onerror t0 (USOut.body none)).reports = [Report.parseFail])
    ∧ (∀ out, (updateSoundsRun onerror t0 out).table = t0
        ∨ ∃ j', out = USOut.body (some j')
            ∧ (updateSoundsRun onerror t0 out).table = j'.snds) := by
  refine ⟨?_, ?_, ?_, ?_, ?_, ?_, ?_⟩
  · rw [updateSoundsRun]
    simp [errorsRun, errAppPart, hs, hm]
  · rw [updateSoundsRun]
  · rw [updateSoundsRun]
  · rw [updateSoundsRun]
  · rw [updateSoundsRun]
  · intro ho
    subst ho
    rw [updateSoundsRun]
    simp [errorsRun]
  · intro out
    cases out with
    | terr => exact Or.inl (by rw [updateSoundsRun])
    | body p =>
      cases p with
      | none => exact Or.inl (by rw [updateSoundsRun])
      | some j' =>
        rw [updateSoundsRun]
        by_cases hth : ((errorsRun onerror (ErrInput.str (some j'))).threw ||
            (errorsRun onerror (ErrInput.str (some j'))).badCall) = true
        · exact Or.inl (by simp [hth])
        · refine Or.inr ⟨j', rfl, ?_⟩
          simp only [Bool.not_eq_true] at hth
          simp [hth]

/-- Witness for `c6_sound_table_refresh` at a concrete response. -/
theorem c6_sound_table_refresh_witness :
    (⟨none, some [(bytes "bike", bytes "Bike")]⟩ : JVal).errs = none
    ∧ (⟨none, some [(bytes "bike", bytes "Bike")]⟩ : JVal).snds =
        some [(bytes "bike", bytes "Bike")]
    ∧ (updateSoundsRun true (some [(bytes "pushover", bytes "Pushover (default)")])
        (USOut.body (some ⟨none, some [(bytes "bike", bytes "Bike")]⟩))).table =
      some [(bytes "bike", bytes "Bike")] :=
  ⟨rfl, rfl,
   (c6_sound_table_refresh true (some [(bytes "pushover", bytes "Pushover (default)")])
      ⟨none, some [(bytes "bike", bytes "Bike")]⟩ [(bytes "bike", bytes "Bike")]
      rfl rfl).1⟩

/-! ## Claim C10: the unguarded parse-error branch of `errors` -/

/-- C10: `errors` guards the missing-handler case only on the
application-error branch — with a present (even non-empty) `errors` list and
no handler it throws — while the JSON-parse-failure branch calls
`this.onerror` unconditionally: with no handler configured every non-JSON
string input reaches a call of `undefined` (`badCall`), and the descriptive
parse report is delivered only under the precondition that a handler is
configured. -/
theorem c10_unguarded_parse_branch (j : JVal) (es : List ByteStr)
    (hj : j.errs = some es) (hne : es ≠ []) :
    (errorsRun false (ErrInput.str none)).badCall = true
    ∧ (errorsRun false (ErrInput.str none)).reports = []
    ∧ errorsRun true (ErrInput.str none) = ⟨[Report.parseFail], false, false⟩
    ∧ (errorsRun false (ErrInput.str (some j))).threw = true
    ∧ (errorsRun false (ErrInput.str (some j))).badCall = false
    ∧ (errorsRun true (ErrInput.str (some j))).reports = [Report.appErr es.head?]
    ∧ (errorsRun true (ErrInput.str (some j))).badCall = false := by
  refine ⟨rfl, rfl, rfl, ?_, ?_, ?_, ?_⟩ <;>
    simp [errorsRun, errAppPart, hj]

/-- Witness for `c10_unguarded_parse_branch` at a concrete error response. -/
theorem c10_unguarded_parse_branch_witness :
    (⟨some [bytes "invalid token"], none⟩ : JVal).errs = some [bytes "invalid token"]
    ∧ ([bytes "invalid token"] : List ByteStr) ≠ []
    ∧ (errorsRun false (ErrInput.str none)).badCall = true :=
  ⟨rfl, by simp,
   (c10_unguarded_parse_branch ⟨some [bytes "invalid token"], none⟩
      [bytes "invalid token"] rfl (by simp)).1⟩
